import Mathlib

/-!
Shallow embedding of the docile field-matching code
(`src/docile/dataset/field.py` and `src/docile/evaluation/metrics.py`).

Python floats are modelled by `ℚ` (the numeric literals of the source are
exactly representable and all claims are about exact comparisons and ratios),
Python ints by `ℤ`, optional values by `Option`, Python `set` by `Finset`,
and raised exceptions by `Except PyError`.
-/

set_option allowUnsafeReducibility true

attribute [local semireducible] Rat.mul Rat.inv Rat.add Rat.sub Rat.ofScientific

deriving instance DecidableEq for Except

namespace Docile

open scoped List

/-- `BBox` from `field.py`: four scalar coordinates. -/
structure BBox where
  left : ℚ
  top : ℚ
  right : ℚ
  bottom : ℚ
  deriving DecidableEq

/-- `BBox.intersects` from `field.py`. -/
def BBox.intersects (s other : BBox) : Bool :=
  if s.left > other.right ∨ other.left > s.right then false
  else if s.top > other.bottom ∨ other.top > s.bottom then false
  else true

/-- `PCC` from `field.py`: a position `(x, y)` on a page. Python's frozen
dataclass equality compares the three components, as structure equality
does here. -/
structure PCC where
  x : ℚ
  y : ℚ
  page : ℤ
  deriving DecidableEq

instance : Inhabited PCC := ⟨⟨0, 0, 0⟩⟩

/-- `Field` from `field.py` (the `init=True` components; the derived `pccs`
component is the function `Field.pccs` below, which is legitimate because the
dataclass is frozen: the stored list always equals this computation). -/
structure Field where
  bbox : BBox
  page : ℤ
  score : Option ℚ := none
  text : Option String := none
  fieldtype : Option String := none
  line_item_id : Option ℤ := none
  deriving DecidableEq

/-- `Field._calculate_pccs` from `field.py`. -/
def calculate_pccs (bbox : BBox) (text : String) (page : ℤ) : List PCC :=
  let char_width : ℚ := (bbox.right - bbox.left) / (text.length : ℚ)
  let y_middle : ℚ := (bbox.top + bbox.bottom) / 2
  (List.range text.length).map fun (i : ℕ) =>
    ⟨bbox.left + ((i : ℚ) + 1 / 2) * char_width, y_middle, page⟩

/-- The derived `pccs` attribute set in `Field.__post_init__`: Python's
`if self.text:` is false for `None` and for the empty string. -/
def Field.pccs (f : Field) : List PCC :=
  match f.text with
  | none => []
  | some t => if t.length = 0 then [] else calculate_pccs f.bbox t f.page

/-- The exceptions the embedded code can raise. -/
inductive PyError where
  | zeroDivisionError
  | keyError
  deriving DecidableEq

/-- `EPS` from `metrics.py` (the value of the literal `1e-6`). -/
def EPS : ℚ := 1 / 1000000

/-- `MatchedPair` from `metrics.py`. -/
structure MatchedPair where
  gold : Field
  pred : Field
  deriving DecidableEq

/-- `FieldMatching` from `metrics.py`. -/
structure FieldMatching where
  «matches» : List MatchedPair
  extra : List Field
  misses : List Field
  deriving DecidableEq

/-- Loop of CPython's `bisect.bisect_left`, with the explicit fuel
`a.length` standing in for the well-foundedness of `hi - lo` (the interval
shrinks at every step, so `a.length` steps always suffice); this keeps the
function reducible by the kernel. -/
def blGo (a : List PCC) (x : ℚ) (key : PCC → ℚ) : ℕ → ℕ → ℕ → ℕ
  | 0, lo, _ => lo
  | fuel + 1, lo, hi =>
    if lo < hi then
      let mid := (lo + hi) / 2
      if key (a.getD mid default) < x then blGo a x key fuel (mid + 1) hi
      else blGo a x key fuel lo mid
    else lo

/-- `bisect.bisect_left(a, x, key=key)` from the Python standard library. -/
def bisect_left (a : List PCC) (x : ℚ) (key : PCC → ℚ) : ℕ :=
  blGo a x key a.length 0 a.length

/-- Loop of CPython's `bisect.bisect_right`, fuelled like `blGo`. -/
def brGo (a : List PCC) (x : ℚ) (key : PCC → ℚ) : ℕ → ℕ → ℕ → ℕ
  | 0, lo, _ => lo
  | fuel + 1, lo, hi =>
    if lo < hi then
      let mid := (lo + hi) / 2
      if x < key (a.getD mid default) then brGo a x key fuel lo mid
      else brGo a x key fuel (mid + 1) hi
    else lo

/-- `bisect.bisect_right(a, x, key=key)` from the Python standard library. -/
def bisect_right (a : List PCC) (x : ℚ) (key : PCC → ℚ) : ℕ :=
  brGo a x key a.length 0 a.length

/-- `pccs_covered` from `metrics.py`: the Python slice `a[i:j]` is
`(a.drop i).take (j - i)` and `set(...)` intersection is `Finset` intersection. -/
def pccs_covered (sorted_x_pccs sorted_y_pccs : List PCC) (bbox : BBox) : Finset PCC :=
  let i_l := bisect_left sorted_x_pccs bbox.left (fun p => p.x)
  let i_r := bisect_right sorted_x_pccs bbox.right (fun p => p.x)
  let x_subset := ((sorted_x_pccs.drop i_l).take (i_r - i_l)).toFinset
  let i_t := bisect_left sorted_y_pccs bbox.top (fun p => p.y)
  let i_b := bisect_right sorted_y_pccs bbox.bottom (fun p => p.y)
  let y_subset := ((sorted_y_pccs.drop i_t).take (i_b - i_t)).toFinset
  x_subset ∩ y_subset

/-- `pccs_iou` from `metrics.py`: Python `/` raises `ZeroDivisionError`
exactly when the denominator `len(golds.union(preds))` is `0`. -/
def pccs_iou (sorted_x_pccs sorted_y_pccs : List PCC) (gold_bbox pred_bbox : BBox) :
    Except PyError ℚ :=
  let golds := pccs_covered sorted_x_pccs sorted_y_pccs gold_bbox
  let preds := pccs_covered sorted_x_pccs sorted_y_pccs pred_bbox
  if (golds ∪ preds).card = 0 then .error .zeroDivisionError
  else .ok (((golds ∩ preds).card : ℚ) / ((golds ∪ preds).card : ℚ))

/-! ### The matching engine `get_matches` from `metrics.py`

Python dictionaries that group list elements by a key (built by appending in
input order) are embedded as order-preserving `List.filter`s; Python's
`sorted` (a stable sort) is embedded as the stable insertion sort
`sortStable`, which produces the same list as any stable sort. -/

/-- Insert `x` in front of the first element `y` with `le x y`; elements
already placed that compare equal to `x` stay in front of it, which is
what makes `sortStable` stable. -/
def insertStable {α : Type} (le : α → α → Bool) (x : α) : List α → List α
  | [] => [x]
  | y :: ys => if le x y then x :: y :: ys else y :: insertStable le x ys

/-- Stable sort: the unique output that is `le`-sorted and keeps elements
with equal keys in their original relative order, i.e. the result of
Python's `sorted`. -/
def sortStable {α : Type} (le : α → α → Bool) (l : List α) : List α :=
  l.foldr (insertStable le) []

/-- The sort key `-pred.score if pred.score is not None else 0` used by
`get_matches` (Python `sorted` is ascending in the key). -/
def scoreKey (f : Field) : ℚ :=
  match f.score with
  | some s => -s
  | none => 0

/-- `sorted(predictions_by_key[fieldtype], key=...)` from `get_matches`. -/
def sortPreds (l : List Field) : List Field :=
  sortStable (fun a b => decide (scoreKey a ≤ scoreKey b)) l

/-- `page_to_pccs[page]` from `get_matches`: grouping by appending in input
order is the order-preserving filter. The page is a key of the dictionary
iff this list is nonempty. -/
def pagePccs (pccs : List PCC) (page : ℤ) : List PCC :=
  pccs.filter (fun p => decide (p.page = page))

/-- `page_to_sorted_x_pccs[page]` from `get_matches`. -/
def sortedXPccs (pccs : List PCC) (page : ℤ) : List PCC :=
  sortStable (fun p q => decide (p.x ≤ q.x)) (pagePccs pccs page)

/-- `page_to_sorted_y_pccs[page]` from `get_matches`. -/
def sortedYPccs (pccs : List PCC) (page : ℤ) : List PCC :=
  sortStable (fun p q => decide (p.y ≤ q.y)) (pagePccs pccs page)

/-- The `for gold_i, gold in enumerate(...)` loop body of `get_matches`:
scan the gold candidates in their current order, accept the first one whose
IoU exceeds `iou_threshold - EPS` and remove it (`pop(gold_i)`), and
propagate an exception raised by `pccs_iou`. Returns the accepted candidate
together with the remaining pool. -/
def matchPred (sx sy : List PCC) (pred_bbox : BBox) (iou_threshold : ℚ) :
    List Field → Except PyError (Option (Field × List Field))
  | [] => .ok none
  | gold :: golds =>
    match pccs_iou sx sy gold.bbox pred_bbox with
    | .error e => .error e
    | .ok iou =>
      if iou > iou_threshold - EPS then .ok (some (gold, golds))
      else
        match matchPred sx sy pred_bbox iou_threshold golds with
        | .error e => .error e
        | .ok none => .ok none
        | .ok (some (g, gs)) => .ok (some (g, gold :: gs))

/-- The per-fieldtype prediction loop of `get_matches`. The state is the
inner gold pool `annotations_by_key_and_page[fieldtype]`, a map from page to
the remaining gold fields. The dictionary lookup
`page_to_sorted_x_pccs[pred.page]` happens inside the gold loop body, so it
raises `KeyError` (iff the page has no PCC) only when the gold pool for the
prediction's page is nonempty. Returns the matched pairs, the extra
predictions and the final pool. -/
def processPreds (pccs : List PCC) (iou_threshold : ℚ) :
    List Field → (ℤ → List Field) →
    Except PyError (List MatchedPair × List Field × (ℤ → List Field))
  | [], pool => .ok ([], [], pool)
  | pred :: rest, pool =>
    match pool pred.page with
    | [] =>
      match processPreds pccs iou_threshold rest pool with
      | .error e => .error e
      | .ok (m, e, p) => .ok (m, pred :: e, p)
    | g0 :: gs0 =>
      if pagePccs pccs pred.page = [] then .error .keyError
      else
        match matchPred (sortedXPccs pccs pred.page) (sortedYPccs pccs pred.page)
            pred.bbox iou_threshold (g0 :: gs0) with
        | .error e => .error e
        | .ok none =>
          match processPreds pccs iou_threshold rest pool with
          | .error e => .error e
          | .ok (m, e, p) => .ok (m, pred :: e, p)
        | .ok (some (gold, remaining)) =>
          match processPreds pccs iou_threshold rest
              (fun pg => if pg = pred.page then remaining else pool pg) with
          | .error e => .error e
          | .ok (m, e, p) => .ok (⟨gold, pred⟩ :: m, e, p)

/-- The outer gold pool `annotations_by_key_and_page`. -/
def Pool : Type := Option String → ℤ → List Field

/-- The `for fieldtype in all_fieldtypes` loop of `get_matches`, threading
the gold pool through the per-fieldtype runs of `processPreds`. -/
def processAll (pccs : List PCC) (iou_threshold : ℚ) (predsBy : Option String → List Field) :
    List (Option String) → Pool →
    Except PyError (List MatchedPair × List Field × Pool)
  | [], pool => .ok ([], [], pool)
  | ft :: fts, pool =>
    match processPreds pccs iou_threshold (sortPreds (predsBy ft)) (pool ft) with
    | .error e => .error e
    | .ok (m, e, ftPool) =>
      match processAll pccs iou_threshold predsBy fts
          (fun ft' => if ft' = ft then ftPool else pool ft') with
      | .error e => .error e
      | .ok (m', e', finalPool) => .ok (m ++ m', e ++ e', finalPool)

/-- Distinct values of a list in order of first occurrence: the key order of
a Python dictionary built by grouping. -/
def dedupKeepFirst {α : Type} [DecidableEq α] : List α → List α
  | [] => []
  | a :: rest => a :: (dedupKeepFirst rest).filter (fun b => decide (b ≠ a))

/-- `set(annotations_by_key_and_page.keys()).union(predictions_by_key.keys())`
from `get_matches`. CPython iterates this set in an unspecified hash order;
the embedding fixes one enumeration of the same set of fieldtypes (matching
results per fieldtype are independent, so only the output order of the
result lists depends on this choice). -/
def allFieldtypes (predictions annotations : List Field) : List (Option String) :=
  dedupKeepFirst (annotations.map (fun a => a.fieldtype)
    ++ predictions.map (fun p => p.fieldtype))

/-- `annotations_by_key_and_page` as first built from `annotations`:
grouping by appending in input order is the order-preserving filter. -/
def initialPool (annotations : List Field) : Pool :=
  fun ft pg => annotations.filter (fun a => decide (a.fieldtype = ft ∧ a.page = pg))

/-- The `misses` list comprehension of `get_matches`: the remaining pool
entries flattened in dictionary insertion order, i.e. fieldtypes in order of
first occurrence in `annotations` and pages in order of first occurrence
among the annotations of that fieldtype. (Keys added by `defaultdict` reads
during matching hold empty lists and contribute nothing.) -/
def missesOf (annotations : List Field) (pool : Pool) : List Field :=
  (dedupKeepFirst (annotations.map (fun a => a.fieldtype))).flatMap fun ft =>
    (dedupKeepFirst ((annotations.filter (fun a => decide (a.fieldtype = ft))).map
      (fun a => a.page))).flatMap fun pg => pool ft pg

/-- `get_matches` from `metrics.py`. -/
def get_matches (predictions annotations : List Field) (pccs : List PCC)
    (iou_threshold : ℚ := 1) : Except PyError FieldMatching :=
  let predsBy : Option String → List Field :=
    fun ft => predictions.filter (fun p => decide (p.fieldtype = ft))
  match processAll pccs iou_threshold predsBy (allFieldtypes predictions annotations)
      (initialPool annotations) with
  | .error e => .error e
  | .ok (m, e, finalPool) => .ok ⟨m, e, missesOf annotations finalPool⟩

/-! ### Spec-side definitions for the matching step (claim C2)

The spec describes step 3a/3b of the matching algorithm in its own words:
sort each fieldtype's predictions by descending `score` with a missing score
treated as the rank value `0` and ties keeping the original relative order,
then match each prediction to the first remaining gold candidate whose
`pccs_iou` exceeds `iou_threshold - 1e-6`, removing that candidate from the
pool. The definitions below follow those words (a sort of index-tagged
predictions under the strict "higher score, or equal score and earlier
position" order, and a scan returning the position of the first accepted
candidate, removed with `eraseIdx`); the C2 theorem compares the pipeline
built from them with `get_matches`. -/

/-- Spec: "treating missing score as rank value 0". -/
def specScore (f : Field) : ℚ := f.score.getD 0

/-- Spec order for sorting: prediction `a` comes before prediction `b` iff
`a` has the higher score, or the scores are equal (both defaulted to 0) and
`a` stood earlier in the input (ties preserve original relative order). -/
def specPredBefore (a b : ℕ × Field) : Bool :=
  decide (specScore b.2 < specScore a.2 ∨ (specScore a.2 = specScore b.2 ∧ a.1 ≤ b.1))

/-- Tag each element with its position, starting at `n`. -/
def withIdx {α : Type} : ℕ → List α → List (ℕ × α)
  | _, [] => []
  | n, a :: l => (n, a) :: withIdx (n + 1) l

/-- Spec step 3a: the unique ordering of the predictions under
`specPredBefore` (a strict total order on the index-tagged list, so any
sort realises it). -/
def spec_sort_predictions (l : List Field) : List Field :=
  (sortStable specPredBefore (withIdx 0 l)).map Prod.snd

/-- Spec step 3b: scan the remaining gold candidates in their current
order, stop at the first one whose IoU exceeds the threshold minus 1e-6 and
report its position. -/
def spec_first_accept (sx sy : List PCC) (pred_bbox : BBox) (iou_threshold : ℚ) :
    List Field → Except PyError (Option (ℕ × Field))
  | [] => .ok none
  | g :: gs =>
    match pccs_iou sx sy g.bbox pred_bbox with
    | .error e => .error e
    | .ok iou =>
      if iou > iou_threshold - 1 / 1000000 then .ok (some (0, g))
      else
        match spec_first_accept sx sy pred_bbox iou_threshold gs with
        | .error e => .error e
        | .ok none => .ok none
        | .ok (some (i, g')) => .ok (some (i + 1, g'))

/-- `processPreds` with the scan replaced by the spec's formulation: the
accepted candidate is removed from the pool by its position. -/
def spec_processPreds (pccs : List PCC) (iou_threshold : ℚ) :
    List Field → (ℤ → List Field) →
    Except PyError (List MatchedPair × List Field × (ℤ → List Field))
  | [], pool => .ok ([], [], pool)
  | pred :: rest, pool =>
    match pool pred.page with
    | [] =>
      match spec_processPreds pccs iou_threshold rest pool with
      | .error e => .error e
      | .ok (m, e, p) => .ok (m, pred :: e, p)
    | g0 :: gs0 =>
      if pagePccs pccs pred.page = [] then .error .keyError
      else
        match spec_first_accept (sortedXPccs pccs pred.page) (sortedYPccs pccs pred.page)
            pred.bbox iou_threshold (g0 :: gs0) with
        | .error e => .error e
        | .ok none =>
          match spec_processPreds pccs iou_threshold rest pool with
          | .error e => .error e
          | .ok (m, e, p) => .ok (m, pred :: e, p)
        | .ok (some (i, gold)) =>
          match spec_processPreds pccs iou_threshold rest
              (fun pg => if pg = pred.page then (g0 :: gs0).eraseIdx i else pool pg) with
          | .error e => .error e
          | .ok (m, e, p) => .ok (⟨gold, pred⟩ :: m, e, p)

/-- `processAll` with the spec-side sort and scan. -/
def spec_processAll (pccs : List PCC) (iou_threshold : ℚ)
    (predsBy : Option String → List Field) :
    List (Option String) → Pool →
    Except PyError (List MatchedPair × List Field × Pool)
  | [], pool => .ok ([], [], pool)
  | ft :: fts, pool =>
    match spec_processPreds pccs iou_threshold (spec_sort_predictions (predsBy ft)) (pool ft) with
    | .error e => .error e
    | .ok (m, e, ftPool) =>
      match spec_processAll pccs iou_threshold predsBy fts
          (fun ft' => if ft' = ft then ftPool else pool ft') with
      | .error e => .error e
      | .ok (m', e', finalPool) => .ok (m ++ m', e ++ e', finalPool)

/-- `get_matches` with its per-fieldtype sort and scan replaced by the
spec's formulation of step 3. -/
def get_matches_spec (predictions annotations : List Field) (pccs : List PCC)
    (iou_threshold : ℚ := 1) : Except PyError FieldMatching :=
  let predsBy : Option String → List Field :=
    fun ft => predictions.filter (fun p => decide (p.fieldtype = ft))
  match spec_processAll pccs iou_threshold predsBy (allFieldtypes predictions annotations)
      (initialPool annotations) with
  | .error e => .error e
  | .ok (m, e, finalPool) => .ok ⟨m, e, missesOf annotations finalPool⟩

/-! ### Basic properties of the stable insertion sort -/

lemma insertStable_perm {α : Type} (le : α → α → Bool) (x : α) :
    ∀ s : List α, List.Perm (insertStable le x s) (x :: s)
  | [] => List.Perm.refl _
  | y :: ys => by
    simp only [insertStable]
    split
    · exact List.Perm.refl _
    · exact ((insertStable_perm le x ys).cons y).trans (List.Perm.swap x y ys)

lemma sortStable_perm {α : Type} (le : α → α → Bool) :
    ∀ l : List α, List.Perm (sortStable le l) l
  | [] => List.Perm.refl _
  | a :: l =>
    (insertStable_perm le a (sortStable le l)).trans ((sortStable_perm le l).cons a)

lemma mem_sortStable {α : Type} {le : α → α → Bool} {a : α} {l : List α} :
    a ∈ sortStable le l ↔ a ∈ l :=
  (sortStable_perm le l).mem_iff

lemma insertStable_sorted {α : Type} (k : α → ℚ) (x : α) :
    ∀ {s : List α}, s.Pairwise (fun a b => k a ≤ k b) →
      (insertStable (fun a b => decide (k a ≤ k b)) x s).Pairwise (fun a b => k a ≤ k b) := by
  intro s
  induction s with
  | nil => intro _; simp [insertStable]
  | cons y ys ih =>
    intro hs
    rw [List.pairwise_cons] at hs
    simp only [insertStable]
    split
    · rename_i h
      rw [decide_eq_true_eq] at h
      refine List.pairwise_cons.mpr ⟨?_, List.pairwise_cons.mpr hs⟩
      intro z hz
      rcases List.mem_cons.mp hz with hz | hz
      · exact hz ▸ h
      · exact le_trans h (hs.1 z hz)
    · rename_i h
      rw [decide_eq_true_eq] at h
      refine List.pairwise_cons.mpr ⟨?_, ih hs.2⟩
      intro z hz
      rcases List.mem_cons.mp ((insertStable_perm _ x ys).mem_iff.mp hz) with hz1 | hz1
      · exact hz1 ▸ le_of_not_le h
      · exact hs.1 z hz1

lemma sortStable_sorted {α : Type} (k : α → ℚ) :
    ∀ l : List α, (sortStable (fun a b => decide (k a ≤ k b)) l).Pairwise (fun a b => k a ≤ k b)
  | [] => List.Pairwise.nil
  | a :: l => insertStable_sorted k a (sortStable_sorted k l)

/-! ### Correctness of the bisection search (`bisect_left`, `bisect_right`) -/

lemma blGo_spec (a : List PCC) (x : ℚ) (key : PCC → ℚ)
    (mono : ∀ i j, i ≤ j → j < a.length →
      key (a.getD i default) ≤ key (a.getD j default)) :
    ∀ (fuel lo hi : ℕ), hi - lo ≤ fuel → hi ≤ a.length →
      (∀ j, j < lo → key (a.getD j default) < x) →
      (∀ j, hi ≤ j → j < a.length → x ≤ key (a.getD j default)) →
      (∀ j, j < blGo a x key fuel lo hi → key (a.getD j default) < x) ∧
      (∀ j, blGo a x key fuel lo hi ≤ j → j < a.length → x ≤ key (a.getD j default)) := by
  intro fuel
  induction fuel with
  | zero =>
    intro lo hi hf _ hlo hhi
    simp only [blGo]
    exact ⟨hlo, fun j hj hjl => hhi j (by omega) hjl⟩
  | succ fuel ih =>
    intro lo hi hf hlen hlo hhi
    simp only [blGo]
    by_cases hlh : lo < hi
    · rw [if_pos hlh]
      by_cases hk : key (a.getD ((lo + hi) / 2) default) < x
      · rw [if_pos hk]
        refine ih ((lo + hi) / 2 + 1) hi (by omega) hlen ?_ hhi
        intro j hj
        exact lt_of_le_of_lt (mono j ((lo + hi) / 2) (by omega) (by omega)) hk
      · rw [if_neg hk]
        refine ih lo ((lo + hi) / 2) (by omega) (by omega) hlo ?_
        intro j hj hjl
        exact le_trans (le_of_not_lt hk) (mono ((lo + hi) / 2) j hj hjl)
    · rw [if_neg hlh]
      exact ⟨hlo, fun j hj hjl => hhi j (by omega) hjl⟩

lemma brGo_spec (a : List PCC) (x : ℚ) (key : PCC → ℚ)
    (mono : ∀ i j, i ≤ j → j < a.length →
      key (a.getD i default) ≤ key (a.getD j default)) :
    ∀ (fuel lo hi : ℕ), hi - lo ≤ fuel → hi ≤ a.length →
      (∀ j, j < lo → key (a.getD j default) ≤ x) →
      (∀ j, hi ≤ j → j < a.length → x < key (a.getD j default)) →
      (∀ j, j < brGo a x key fuel lo hi → key (a.getD j default) ≤ x) ∧
      (∀ j, brGo a x key fuel lo hi ≤ j → j < a.length → x < key (a.getD j default)) := by
  intro fuel
  induction fuel with
  | zero =>
    intro lo hi hf _ hlo hhi
    simp only [brGo]
    exact ⟨hlo, fun j hj hjl => hhi j (by omega) hjl⟩
  | succ fuel ih =>
    intro lo hi hf hlen hlo hhi
    simp only [brGo]
    by_cases hlh : lo < hi
    · rw [if_pos hlh]
      by_cases hk : x < key (a.getD ((lo + hi) / 2) default)
      · rw [if_pos hk]
        refine ih lo ((lo + hi) / 2) (by omega) (by omega) hlo ?_
        intro j hj hjl
        exact lt_of_lt_of_le hk (mono ((lo + hi) / 2) j hj hjl)
      · rw [if_neg hk]
        refine ih ((lo + hi) / 2 + 1) hi (by omega) hlen ?_ hhi
        intro j hj
        exact le_trans (mono j ((lo + hi) / 2) (by omega) (by omega)) (le_of_not_lt hk)
    · rw [if_neg hlh]
      exact ⟨hlo, fun j hj hjl => hhi j (by omega) hjl⟩

lemma pairwise_key_mono (a : List PCC) (key : PCC → ℚ)
    (hs : a.Pairwise (fun p q => key p ≤ key q)) :
    ∀ i j, i ≤ j → j < a.length → key (a.getD i default) ≤ key (a.getD j default) := by
  intro i j hij hj
  rcases eq_or_lt_of_le hij with rfl | hlt
  · exact le_refl _
  · have hi : i < a.length := lt_trans hlt hj
    have := List.pairwise_iff_getElem.mp hs i j hi hj hlt
    rwa [List.getD_eq_getElem?_getD, List.getD_eq_getElem?_getD,
      List.getElem?_eq_getElem hi, List.getElem?_eq_getElem hj] at *

lemma bisect_left_spec (a : List PCC) (x : ℚ) (key : PCC → ℚ)
    (hs : a.Pairwise (fun p q => key p ≤ key q)) :
    (∀ j, j < bisect_left a x key → key (a.getD j default) < x) ∧
    (∀ j, bisect_left a x key ≤ j → j < a.length → x ≤ key (a.getD j default)) :=
  blGo_spec a x key (pairwise_key_mono a key hs) a.length 0 a.length (by omega) (le_refl _)
    (by omega) (by omega)

lemma bisect_right_spec (a : List PCC) (x : ℚ) (key : PCC → ℚ)
    (hs : a.Pairwise (fun p q => key p ≤ key q)) :
    (∀ j, j < bisect_right a x key → key (a.getD j default) ≤ x) ∧
    (∀ j, bisect_right a x key ≤ j → j < a.length → x < key (a.getD j default)) :=
  brGo_spec a x key (pairwise_key_mono a key hs) a.length 0 a.length (by omega) (le_refl _)
    (by omega) (by omega)

/-- Membership in the Python slice `a[i:r]`. -/
lemma mem_slice_iff (a : List PCC) (i r : ℕ) (p : PCC) :
    p ∈ (a.drop i).take (r - i) ↔
      ∃ j, i ≤ j ∧ j < r ∧ j < a.length ∧ a.getD j default = p := by
  constructor
  · intro hp
    obtain ⟨m, hm, hEq⟩ := List.mem_iff_getElem.mp hp
    have hm' : m < r - i ∧ m < a.length - i := by
      simpa [Nat.lt_min] using hm
    refine ⟨i + m, by omega, by omega, by omega, ?_⟩
    rw [List.getD_eq_getElem?_getD, List.getElem?_eq_getElem (by omega : i + m < a.length)]
    rw [List.getElem_take, List.getElem_drop] at hEq
    exact hEq
  · rintro ⟨j, hij, hjr, hjl, hEq⟩
    apply List.mem_iff_getElem.mpr
    have hlen : j - i < ((a.drop i).take (r - i)).length := by
      simp [Nat.lt_min]
      omega
    refine ⟨j - i, hlen, ?_⟩
    rw [List.getElem_take, List.getElem_drop]
    rw [List.getD_eq_getElem?_getD, List.getElem?_eq_getElem hjl] at hEq
    simp only [Option.getD_some] at hEq
    have hj' : i + (j - i) = j := by omega
    simp_rw [hj']
    exact hEq

/-- The slice between `bisect_left` of the lower bound and `bisect_right`
of the upper bound holds exactly the pool elements whose key is in the
closed interval, for a key-sorted pool. -/
lemma slice_bisect_mem (a : List PCC) (key : PCC → ℚ)
    (hs : a.Pairwise (fun p q => key p ≤ key q)) (lft rgt : ℚ) (p : PCC) :
    p ∈ (a.drop (bisect_left a lft key)).take (bisect_right a rgt key - bisect_left a lft key) ↔
      p ∈ a ∧ lft ≤ key p ∧ key p ≤ rgt := by
  rw [mem_slice_iff]
  constructor
  · rintro ⟨j, hbl, hbr, hjl, hEq⟩
    refine ⟨?_, ?_, ?_⟩
    · rw [List.getD_eq_getElem?_getD, List.getElem?_eq_getElem hjl] at hEq
      simp only [Option.getD_some] at hEq
      exact hEq ▸ List.getElem_mem hjl
    · have := (bisect_left_spec a lft key hs).2 j hbl hjl
      rwa [hEq] at this
    · have := (bisect_right_spec a rgt key hs).1 j hbr
      rwa [hEq] at this
  · rintro ⟨hmem, hl, hr⟩
    obtain ⟨j, hjl, hEq⟩ := List.mem_iff_getElem.mp hmem
    have hgd : a.getD j default = p := by
      rw [List.getD_eq_getElem?_getD, List.getElem?_eq_getElem hjl]
      simpa using hEq
    refine ⟨j, ?_, ?_, hjl, hgd⟩
    · by_contra hcon
      have := (bisect_left_spec a lft key hs).1 j (by omega)
      rw [hgd] at this
      exact absurd hl (not_le_of_lt this)
    · by_contra hcon
      have := (bisect_right_spec a rgt key hs).2 j (by omega) hjl
      rw [hgd] at this
      exact absurd hr (not_le_of_lt this)

/-- Characterisation of `pccs_covered` on sorted views of one pool. -/
lemma pccs_covered_mem {sx sy : List PCC} (bbox : BBox)
    (hx : sx.Pairwise (fun p q => p.x ≤ q.x))
    (hy : sy.Pairwise (fun p q => p.y ≤ q.y))
    (hperm : List.Perm sx sy) (p : PCC) :
    p ∈ pccs_covered sx sy bbox ↔
      p ∈ sx ∧ bbox.left ≤ p.x ∧ p.x ≤ bbox.right ∧
        bbox.top ≤ p.y ∧ p.y ≤ bbox.bottom := by
  simp only [pccs_covered, Finset.mem_inter, List.mem_toFinset]
  rw [slice_bisect_mem sx (fun p => p.x) hx, slice_bisect_mem sy (fun p => p.y) hy]
  rw [← hperm.mem_iff (a := p)]
  tauto

/-! ### Claims C4, C5, C10 -/

/-- C4: for PCC lists that are the same multiset sorted by `x` and by `y`
respectively, `pccs_covered` returns exactly the PCCs of the pool whose `x`
lies in `[bbox.left, bbox.right]` and whose `y` lies in
`[bbox.top, bbox.bottom]`, both bounds inclusive. -/
theorem c4_pccs_covered_characterization (sx sy : List PCC) (bbox : BBox)
    (hperm : List.Perm sx sy)
    (hx : sx.Pairwise (fun p q => p.x ≤ q.x))
    (hy : sy.Pairwise (fun p q => p.y ≤ q.y)) :
    ∀ p : PCC, p ∈ pccs_covered sx sy bbox ↔
      p ∈ sx ∧ bbox.left ≤ p.x ∧ p.x ≤ bbox.right ∧
        bbox.top ≤ p.y ∧ p.y ≤ bbox.bottom :=
  pccs_covered_mem bbox hx hy hperm

theorem c4_witness :
    List.Perm [PCC.mk 1 2 0, PCC.mk 3 1 0] [PCC.mk 3 1 0, PCC.mk 1 2 0] ∧
    ((List.Perm [PCC.mk 1 2 0, PCC.mk 3 1 0] [PCC.mk 3 1 0, PCC.mk 1 2 0]) →
      (PCC.mk 1 2 0 ∈ pccs_covered [PCC.mk 1 2 0, PCC.mk 3 1 0] [PCC.mk 3 1 0, PCC.mk 1 2 0]
          (BBox.mk 0 0 2 2) ↔
        PCC.mk 1 2 0 ∈ [PCC.mk 1 2 0, PCC.mk 3 1 0] ∧ (0 : ℚ) ≤ 1 ∧ (1 : ℚ) ≤ 2 ∧
          (0 : ℚ) ≤ 2 ∧ (2 : ℚ) ≤ 2)) := by
  constructor
  · decide
  · intro hp
    exact c4_pccs_covered_characterization _ _ _ hp (by decide) (by decide) (PCC.mk 1 2 0)

/-- C5: `pccs_iou` raises the division-by-zero error exactly when both
covered sets are empty, and otherwise returns the ratio of the cardinality
of the intersection to the cardinality of the union of the two covered
sets. -/
theorem c5_pccs_iou_division_by_zero (sx sy : List PCC) (gb pb : BBox) :
    pccs_iou sx sy gb pb =
      if pccs_covered sx sy gb = ∅ ∧ pccs_covered sx sy pb = ∅ then
        Except.error PyError.zeroDivisionError
      else
        Except.ok (((pccs_covered sx sy gb ∩ pccs_covered sx sy pb).card : ℚ) /
          ((pccs_covered sx sy gb ∪ pccs_covered sx sy pb).card : ℚ)) := by
  have hiff : ((pccs_covered sx sy gb ∪ pccs_covered sx sy pb).card = 0) ↔
      (pccs_covered sx sy gb = ∅ ∧ pccs_covered sx sy pb = ∅) := by
    rw [Finset.card_eq_zero, Finset.union_eq_empty]
  simp only [pccs_iou]
  by_cases h : pccs_covered sx sy gb = ∅ ∧ pccs_covered sx sy pb = ∅
  · rw [if_pos (hiff.mpr h), if_pos h]
  · rw [if_neg (fun hc => h (hiff.mp hc)), if_neg h]

/-- C10: `pccs_covered` and `pccs_iou` treat PCCs as values identified by
`(x, y, page)`: two pools holding the same set of PCC values (duplicates
collapsing) yield the same covered sets and the same IoU. -/
theorem c10_duplicate_pccs_collapse (sx sy sx2 sy2 : List PCC) (bbox gb pb : BBox)
    (hperm : List.Perm sx sy)
    (hx : sx.Pairwise (fun p q => p.x ≤ q.x))
    (hy : sy.Pairwise (fun p q => p.y ≤ q.y))
    (hperm2 : List.Perm sx2 sy2)
    (hx2 : sx2.Pairwise (fun p q => p.x ≤ q.x))
    (hy2 : sy2.Pairwise (fun p q => p.y ≤ q.y))
    (hset : ∀ p : PCC, p ∈ sx ↔ p ∈ sx2) :
    pccs_covered sx sy bbox = pccs_covered sx2 sy2 bbox ∧
      pccs_iou sx sy gb pb = pccs_iou sx2 sy2 gb pb := by
  have hcov : ∀ b : BBox, pccs_covered sx sy b = pccs_covered sx2 sy2 b := by
    intro b
    apply Finset.ext
    intro p
    rw [pccs_covered_mem b hx hy hperm, pccs_covered_mem b hx2 hy2 hperm2, hset]
  exact ⟨hcov bbox, by simp only [pccs_iou, hcov gb, hcov pb]⟩

theorem c10_witness :
    (∀ p : PCC, p ∈ [PCC.mk 1 1 0] ↔ p ∈ [PCC.mk 1 1 0, PCC.mk 1 1 0]) ∧
    pccs_covered [PCC.mk 1 1 0] [PCC.mk 1 1 0] (BBox.mk 0 0 2 2) =
      pccs_covered [PCC.mk 1 1 0, PCC.mk 1 1 0] [PCC.mk 1 1 0, PCC.mk 1 1 0]
        (BBox.mk 0 0 2 2) ∧
    pccs_iou [PCC.mk 1 1 0] [PCC.mk 1 1 0] (BBox.mk 0 0 2 2) (BBox.mk 0 0 1 1) =
      pccs_iou [PCC.mk 1 1 0, PCC.mk 1 1 0] [PCC.mk 1 1 0, PCC.mk 1 1 0]
        (BBox.mk 0 0 2 2) (BBox.mk 0 0 1 1) := by
  have hset : ∀ p : PCC, p ∈ [PCC.mk 1 1 0] ↔ p ∈ [PCC.mk 1 1 0, PCC.mk 1 1 0] := by
    intro p
    simp
  have h := c10_duplicate_pccs_collapse [PCC.mk 1 1 0] [PCC.mk 1 1 0]
    [PCC.mk 1 1 0, PCC.mk 1 1 0] [PCC.mk 1 1 0, PCC.mk 1 1 0]
    (BBox.mk 0 0 2 2) (BBox.mk 0 0 2 2) (BBox.mk 0 0 1 1)
    (by decide) (by decide) (by decide) (by decide) (by decide) (by decide) hset
  exact ⟨hset, h.1, h.2⟩

/-! ### Claims C8 and C9 -/

/-- C8: a `Field` with text of length `n > 0` and bbox of width `W` has
exactly `n` PCCs, the `i`-th at `x = left + (i + 1/2) * (W / n)` and
`y = (top + bottom) / 2`, all carrying the field's page; a `Field` whose
text is `None` or empty has no PCCs. -/
theorem c8_field_pccs (f : Field) (t : String) :
    (f.text = some t → t.length ≠ 0 →
      f.pccs.length = t.length ∧
      ∀ i, i < t.length →
        f.pccs[i]? = some
          ⟨f.bbox.left + ((i : ℚ) + 1 / 2) * ((f.bbox.right - f.bbox.left) / (t.length : ℚ)),
            (f.bbox.top + f.bbox.bottom) / 2, f.page⟩) ∧
    (f.text = none → f.pccs = []) ∧
    (f.text = some "" → f.pccs = []) := by
  refine ⟨?_, ?_, ?_⟩
  · intro ht hn
    refine ⟨?_, ?_⟩
    · simp only [Field.pccs, ht, if_neg hn, calculate_pccs, List.length_map,
        List.length_range]
    · intro i hi
      simp only [Field.pccs, ht, if_neg hn, calculate_pccs, List.getElem?_map,
        List.getElem?_range hi, Option.map_some']
  · intro ht
    simp [Field.pccs, ht]
  · intro ht
    simp [Field.pccs, ht]

theorem c8_witness :
    (Field.mk (BBox.mk 0 0 1 1) 0 none (some "ab") none none).pccs.length = 2 ∧
    (Field.mk (BBox.mk 0 0 1 1) 0 none (some "ab") none none).pccs[1]? =
      some (PCC.mk (3 / 4) (1 / 2) 0) := by
  have h := (c8_field_pccs (Field.mk (BBox.mk 0 0 1 1) 0 none (some "ab") none none) "ab").1
    rfl (by decide)
  refine ⟨h.1, ?_⟩
  rw [h.2 1 (by decide)]
  decide

/-- C9: the rectangle intersection test is symmetric, and returns `false`
exactly when the rectangles are strictly separated along the x-axis or the
y-axis (so rectangles that merely touch at an edge intersect). -/
theorem c9_intersects_symm_separation (a b : BBox) :
    a.intersects b = b.intersects a ∧
    (a.intersects b = false ↔
      (a.left > b.right ∨ b.left > a.right ∨ a.top > b.bottom ∨ b.top > a.bottom)) := by
  have key : ∀ s o : BBox, (s.intersects o = false ↔
      (s.left > o.right ∨ o.left > s.right ∨ s.top > o.bottom ∨ o.top > s.bottom)) := by
    intro s o
    simp only [BBox.intersects]
    split_ifs with h1 h2
    · simp only [eq_self_iff_true, true_iff]
      tauto
    · simp only [eq_self_iff_true, true_iff]
      tauto
    · simp only [Bool.true_eq_false, false_iff]
      push_neg at h1 h2 ⊢
      exact ⟨h1.1, h1.2, h2.1, h2.2⟩
  refine ⟨?_, key a b⟩
  cases hab : a.intersects b with
  | false =>
    have h := (key a b).mp hab
    exact ((key b a).mpr (by tauto)).symm
  | true =>
    cases hba : b.intersects a with
    | false =>
      have h := (key b a).mp hba
      have := (key a b).mpr (by tauto)
      rw [hab] at this
      exact this
    | true => rfl

/-! ### List utilities for the matching proofs -/

lemma flatMap_congr_mem {α β : Type} {l : List α} {f g : α → List β}
    (h : ∀ a ∈ l, f a = g a) : l.flatMap f = l.flatMap g := by
  induction l with
  | nil => rfl
  | cons a l ih =>
    simp only [List.flatMap_cons]
    rw [h a (List.mem_cons_self a l), ih (fun b hb => h b (List.mem_cons_of_mem a hb))]

lemma flatMap_perm_congr {α β : Type} {l : List α} {f g : α → List β}
    (h : ∀ a ∈ l, List.Perm (f a) (g a)) : List.Perm (l.flatMap f) (l.flatMap g) := by
  induction l with
  | nil => exact List.Perm.refl _
  | cons a l ih =>
    simp only [List.flatMap_cons]
    exact (h a (List.mem_cons_self a l)).append
      (ih (fun b hb => h b (List.mem_cons_of_mem a hb)))

lemma perm_swap_left {α : Type} (X A R : List α) :
    List.Perm (X ++ (A ++ R)) (A ++ (X ++ R)) := by
  calc X ++ (A ++ R) = (X ++ A) ++ R := by rw [List.append_assoc]
    _ ~ (A ++ X) ++ R := List.perm_append_comm.append_right R
    _ = A ++ (X ++ R) := by rw [List.append_assoc]

lemma perm_shuffle {α : Type} (A B C D : List α) :
    List.Perm ((A ++ B) ++ (C ++ D)) ((A ++ C) ++ (B ++ D)) := by
  calc (A ++ B) ++ (C ++ D) = A ++ (B ++ (C ++ D)) := by rw [List.append_assoc]
    _ ~ A ++ (C ++ (B ++ D)) := (perm_swap_left B C D).append_left A
    _ = (A ++ C) ++ (B ++ D) := by rw [List.append_assoc]

lemma mem_dedupKeepFirst {α : Type} [DecidableEq α] {a : α} :
    ∀ {l : List α}, a ∈ dedupKeepFirst l ↔ a ∈ l := by
  intro l
  induction l with
  | nil => simp [dedupKeepFirst]
  | cons b rest ih =>
    simp only [dedupKeepFirst, List.mem_cons, List.mem_filter, decide_eq_true_eq, ih]
    by_cases hab : a = b
    · simp [hab]
    · simp [hab]

lemma nodup_dedupKeepFirst {α : Type} [DecidableEq α] :
    ∀ l : List α, (dedupKeepFirst l).Nodup
  | [] => List.Pairwise.nil
  | b :: rest => by
    simp only [dedupKeepFirst]
    refine List.Nodup.cons ?_ (List.Nodup.filter _ (nodup_dedupKeepFirst rest))
    intro hmem
    have := (List.mem_filter.mp hmem).2
    simp at this

/-- Partition-by-key: flattening the order-preserving filters over a
duplicate-free list of keys covering the list is a permutation of the
original list. -/
lemma flatMap_filter_perm {α κ : Type} [DecidableEq κ] (k : α → κ) :
    ∀ (l : List α) (keys : List κ), keys.Nodup → (∀ a ∈ l, k a ∈ keys) →
      List.Perm (keys.flatMap (fun c => l.filter (fun a => decide (k a = c)))) l := by
  intro l
  induction l with
  | nil =>
    intro keys _ _
    have : keys.flatMap (fun c => ([] : List α).filter (fun a => decide (k a = c))) =
        keys.flatMap (fun _ => ([] : List α)) := flatMap_congr_mem (fun a _ => rfl)
    rw [this]
    simp
  | cons a l ih =>
    intro keys hnd hcov
    obtain ⟨u, v, huv⟩ := List.append_of_mem (hcov a (List.mem_cons_self a l))
    subst huv
    have hnds := hnd
    rw [List.nodup_append] at hnds
    have hkau : k a ∉ u := fun hc => (hnds.2.2 hc) (List.mem_cons_self _ _)
    have hkav : k a ∉ v := by
      have := List.Nodup.of_append_right hnd
      exact (List.nodup_cons.mp this).1
    have hcov' : ∀ b ∈ l, k b ∈ u ++ k a :: v :=
      fun b hb => hcov b (List.mem_cons_of_mem a hb)
    have key : ∀ c : κ, (a :: l).filter (fun x => decide (k x = c)) =
        if k a = c then a :: l.filter (fun x => decide (k x = c))
        else l.filter (fun x => decide (k x = c)) := by
      intro c
      by_cases hc : k a = c
      · simp [List.filter_cons, hc]
      · simp [List.filter_cons, hc]
    have hu : u.flatMap (fun c => (a :: l).filter (fun x => decide (k x = c))) =
        u.flatMap (fun c => l.filter (fun x => decide (k x = c))) := by
      refine flatMap_congr_mem (fun c hc => ?_)
      rw [key c, if_neg (fun h => hkau (by rw [h]; exact hc))]
    have hv : v.flatMap (fun c => (a :: l).filter (fun x => decide (k x = c))) =
        v.flatMap (fun c => l.filter (fun x => decide (k x = c))) := by
      refine flatMap_congr_mem (fun c hc => ?_)
      rw [key c, if_neg (fun h => hkav (by rw [h]; exact hc))]
    have hslot : (a :: l).filter (fun x => decide (k x = k a)) =
        a :: l.filter (fun x => decide (k x = k a)) := by
      rw [key (k a), if_pos rfl]
    rw [List.flatMap_append, List.flatMap_cons, hu, hv, hslot]
    calc u.flatMap (fun c => l.filter (fun x => decide (k x = c))) ++
          ((a :: l.filter (fun x => decide (k x = k a))) ++
            v.flatMap (fun c => l.filter (fun x => decide (k x = c))))
        ~ a :: (u.flatMap (fun c => l.filter (fun x => decide (k x = c))) ++
            (l.filter (fun x => decide (k x = k a)) ++
              v.flatMap (fun c => l.filter (fun x => decide (k x = c))))) := List.perm_middle
      _ = a :: ((u ++ k a :: v).flatMap (fun c => l.filter (fun x => decide (k x = c)))) := by
          rw [List.flatMap_append, List.flatMap_cons]
      _ ~ a :: l := (ih (u ++ k a :: v) hnd hcov').cons a

/-- Removing one occurrence from one bucket of a keyed family permutes the
flattening by removing that element, provided the key occurs exactly once
in the key list. -/
lemma flatMap_update_perm {α κ : Type} [DecidableEq κ] (x : α) (l1 l2 : List α) :
    ∀ (ks : List κ) (pool : κ → List α) (pg : κ), ks.Nodup → pg ∈ ks →
      pool pg = l1 ++ x :: l2 →
      List.Perm (ks.flatMap pool)
        (x :: ks.flatMap (fun p => if p = pg then l1 ++ l2 else pool p)) := by
  intro ks
  induction ks with
  | nil => intro pool pg _ hmem; exact absurd hmem (List.not_mem_nil pg)
  | cons k ks' ih =>
    intro pool pg hnd hmem hpool
    rcases List.mem_cons.mp hmem with rfl | hmem'
    · have hknotin : pg ∉ ks' := (List.nodup_cons.mp hnd).1
      have hrest : ks'.flatMap (fun p => if p = pg then l1 ++ l2 else pool p) =
          ks'.flatMap pool := by
        refine flatMap_congr_mem (fun p hp => ?_)
        rw [if_neg (fun h => hknotin (by rw [← h]; exact hp))]
      simp only [List.flatMap_cons, if_pos rfl, hpool, hrest]
      calc (l1 ++ x :: l2) ++ ks'.flatMap pool
          = l1 ++ (x :: (l2 ++ ks'.flatMap pool)) := by simp [List.append_assoc]
        _ ~ x :: (l1 ++ (l2 ++ ks'.flatMap pool)) := List.perm_middle
        _ = x :: ((l1 ++ l2) ++ ks'.flatMap pool) := by simp [List.append_assoc]
    · have hkne : k ≠ pg := by
        rintro rfl
        exact (List.nodup_cons.mp hnd).1 hmem'
      have ihh := ih pool pg (List.nodup_cons.mp hnd).2 hmem' hpool
      simp only [List.flatMap_cons, if_neg hkne]
      calc pool k ++ ks'.flatMap pool
          ~ pool k ++ (x :: ks'.flatMap (fun p => if p = pg then l1 ++ l2 else pool p)) :=
            ihh.append_left (pool k)
        _ ~ x :: (pool k ++ ks'.flatMap (fun p => if p = pg then l1 ++ l2 else pool p)) :=
            List.perm_middle


/-! ### Properties of `matchPred` (the gold-candidate scan) -/

lemma pccs_iou_error {sx sy : List PCC} {gb pb : BBox} {e : PyError}
    (h : pccs_iou sx sy gb pb = .error e) : e = PyError.zeroDivisionError := by
  simp only [pccs_iou] at h
  split at h
  · exact ((Except.error.injEq _ _).mp h).symm
  · exact absurd h (by simp)

lemma pccs_iou_ok_of_nonempty {sx sy : List PCC} {gb pb : BBox}
    (h : pccs_covered sx sy pb ≠ ∅) :
    ∃ v : ℚ, pccs_iou sx sy gb pb = .ok v := by
  simp only [pccs_iou]
  rw [if_neg]
  · exact ⟨_, rfl⟩
  · intro hc
    exact h (Finset.union_eq_empty.mp (Finset.card_eq_zero.mp hc)).2

lemma matchPred_ok_some (sx sy : List PCC) (pb : BBox) (thr : ℚ) :
    ∀ (golds : List Field) (g : Field) (gs : List Field),
      matchPred sx sy pb thr golds = .ok (some (g, gs)) →
      ∃ l1 l2, golds = l1 ++ g :: l2 ∧ gs = l1 ++ l2 := by
  intro golds
  induction golds with
  | nil => intro g gs h; exact absurd h (by simp [matchPred])
  | cons g0 gs0 ih =>
    intro g gs h
    simp only [matchPred] at h
    split at h
    · exact absurd h (by simp)
    · split at h
      · simp only [Except.ok.injEq, Option.some.injEq, Prod.mk.injEq] at h
        obtain ⟨rfl, rfl⟩ := h
        exact ⟨[], gs0, rfl, rfl⟩
      · split at h
        · exact absurd h (by simp)
        · exact absurd h (by simp)
        · rename_i g1 gs1 heq
          simp only [Except.ok.injEq, Option.some.injEq, Prod.mk.injEq] at h
          obtain ⟨rfl, rfl⟩ := h
          obtain ⟨l1, l2, he1, he2⟩ := ih g1 gs1 heq
          exact ⟨g0 :: l1, l2, by rw [he1]; rfl, by rw [he2]; rfl⟩

lemma matchPred_error (sx sy : List PCC) (pb : BBox) (thr : ℚ) :
    ∀ (golds : List Field) (e : PyError),
      matchPred sx sy pb thr golds = .error e → e = PyError.zeroDivisionError := by
  intro golds
  induction golds with
  | nil => intro e h; exact absurd h (by simp [matchPred])
  | cons g0 gs0 ih =>
    intro e h
    simp only [matchPred] at h
    split at h
    · rename_i e0 hiou
      simp only [Except.error.injEq] at h
      exact h ▸ pccs_iou_error hiou
    · split at h
      · exact absurd h (by simp)
      · split at h
        · rename_i e1 heq
          simp only [Except.error.injEq] at h
          exact h ▸ ih e1 heq
        · exact absurd h (by simp)
        · exact absurd h (by simp)

/-- If the prediction's own covered set is nonempty (so no division error
can occur) and some gold candidate in the pool qualifies, the scan accepts
a candidate. -/
lemma matchPred_finds (sx sy : List PCC) (pb : BBox) (thr : ℚ)
    (hne : pccs_covered sx sy pb ≠ ∅) :
    ∀ (golds : List Field) (g : Field), g ∈ golds →
      (∀ iou : ℚ, pccs_iou sx sy g.bbox pb = .ok iou → iou > thr - EPS) →
      ∃ g' gs', matchPred sx sy pb thr golds = .ok (some (g', gs')) := by
  intro golds
  induction golds with
  | nil => intro g hg _; exact absurd hg (List.not_mem_nil g)
  | cons g0 gs0 ih =>
    intro g hg hq
    obtain ⟨v0, hv0⟩ := @pccs_iou_ok_of_nonempty sx sy g0.bbox pb hne
    simp only [matchPred, hv0]
    by_cases hacc : v0 > thr - EPS
    · rw [if_pos hacc]
      exact ⟨g0, gs0, rfl⟩
    · rw [if_neg hacc]
      have hg' : g ∈ gs0 := by
        rcases List.mem_cons.mp hg with rfl | hmem
        · exact absurd (hq v0 hv0) hacc
        · exact hmem
      obtain ⟨g', gs', hrec⟩ := ih g hg' hq
      rw [hrec]
      exact ⟨g', g0 :: gs', rfl⟩

/-! ### Properties of `processPreds` (the per-fieldtype prediction loop) -/

lemma processPreds_pred_perm (pccs : List PCC) (thr : ℚ) :
    ∀ (preds : List Field) (pool : ℤ → List Field) (m : List MatchedPair)
      (e : List Field) (pl : ℤ → List Field),
      processPreds pccs thr preds pool = .ok (m, e, pl) →
      List.Perm (m.map (fun pr => pr.pred) ++ e) preds := by
  intro preds
  induction preds with
  | nil =>
    intro pool m e pl h
    simp only [processPreds, Except.ok.injEq, Prod.mk.injEq] at h
    obtain ⟨rfl, rfl, rfl⟩ := h
    simp
  | cons pred rest ih =>
    intro pool m e pl h
    simp only [processPreds] at h
    split at h
    · split at h
      · exact absurd h (by simp)
      · rename_i m0 e0 p0 heq
        simp only [Except.ok.injEq, Prod.mk.injEq] at h
        obtain ⟨rfl, rfl, rfl⟩ := h
        exact List.perm_middle.trans ((ih pool m0 e0 _ heq).cons pred)
    · split at h
      · exact absurd h (by simp)
      · split at h
        · exact absurd h (by simp)
        · split at h
          · exact absurd h (by simp)
          · rename_i m0 e0 p0 heq
            simp only [Except.ok.injEq, Prod.mk.injEq] at h
            obtain ⟨rfl, rfl, rfl⟩ := h
            exact List.perm_middle.trans ((ih pool m0 e0 _ heq).cons pred)
        · rename_i gold remaining hmp
          split at h
          · exact absurd h (by simp)
          · rename_i m0 e0 p0 heq
            simp only [Except.ok.injEq, Prod.mk.injEq] at h
            obtain ⟨rfl, rfl, rfl⟩ := h
            simp only [List.map_cons, List.cons_append]
            exact (ih _ m0 e0 _ heq).cons pred

lemma processPreds_pool_sublist (pccs : List PCC) (thr : ℚ) :
    ∀ (preds : List Field) (pool : ℤ → List Field) (m : List MatchedPair)
      (e : List Field) (pl : ℤ → List Field),
      processPreds pccs thr preds pool = .ok (m, e, pl) →
      ∀ pg, (pl pg).Sublist (pool pg) := by
  intro preds
  induction preds with
  | nil =>
    intro pool m e pl h
    simp only [processPreds, Except.ok.injEq, Prod.mk.injEq] at h
    obtain ⟨rfl, rfl, rfl⟩ := h
    exact fun pg => List.Sublist.refl _
  | cons pred rest ih =>
    intro pool m e pl h
    simp only [processPreds] at h
    split at h
    · split at h
      · exact absurd h (by simp)
      · rename_i m0 e0 p0 heq
        simp only [Except.ok.injEq, Prod.mk.injEq] at h
        obtain ⟨rfl, rfl, rfl⟩ := h
        exact ih pool m0 e0 _ heq
    · rename_i g0 gs0 hpool
      split at h
      · exact absurd h (by simp)
      · split at h
        · exact absurd h (by simp)
        · split at h
          · exact absurd h (by simp)
          · rename_i m0 e0 p0 heq
            simp only [Except.ok.injEq, Prod.mk.injEq] at h
            obtain ⟨rfl, rfl, rfl⟩ := h
            exact ih pool m0 e0 _ heq
        · rename_i gold remaining hmp
          split at h
          · exact absurd h (by simp)
          · rename_i m0 e0 p0 heq
            simp only [Except.ok.injEq, Prod.mk.injEq] at h
            obtain ⟨rfl, rfl, rfl⟩ := h
            intro pg
            refine (ih _ m0 e0 _ heq pg).trans ?_
            by_cases hpg : pg = pred.page
            · subst hpg
              rw [if_pos rfl, hpool]
              obtain ⟨l1, l2, hl, hrem⟩ := matchPred_ok_some _ _ _ _ _ _ _ hmp
              rw [hrem, hl]
              exact List.Sublist.append_left (List.sublist_cons_self gold l2) l1
            · rw [if_neg hpg]

lemma processPreds_no_keyError (pccs : List PCC) (thr : ℚ) :
    ∀ (preds : List Field) (pool : ℤ → List Field),
      (∀ p ∈ preds, pagePccs pccs p.page = [] → pool p.page = []) →
      ∀ e, processPreds pccs thr preds pool = .error e → e = PyError.zeroDivisionError := by
  intro preds
  induction preds with
  | nil => intro pool _ e h; exact absurd h (by simp [processPreds])
  | cons pred rest ih =>
    intro pool H e h
    have Hrest : ∀ p ∈ rest, pagePccs pccs p.page = [] → pool p.page = [] :=
      fun p hp => H p (List.mem_cons_of_mem pred hp)
    simp only [processPreds] at h
    split at h
    · split at h
      · rename_i e0 heq
        simp only [Except.error.injEq] at h
        exact h ▸ ih pool Hrest e0 heq
      · exact absurd h (by simp)
    · rename_i g0 gs0 hpool
      split at h
      · rename_i hpp
        exfalso
        have := H pred (List.mem_cons_self pred rest) hpp
        rw [hpool] at this
        exact List.cons_ne_nil g0 gs0 this
      · rename_i hpp
        split at h
        · rename_i e0 hmp
          simp only [Except.error.injEq] at h
          exact h ▸ matchPred_error _ _ _ _ _ e0 hmp
        · split at h
          · rename_i e0 heq
            simp only [Except.error.injEq] at h
            exact h ▸ ih pool Hrest e0 heq
          · exact absurd h (by simp)
        · rename_i gold remaining hmp
          split at h
          · rename_i e0 heq
            simp only [Except.error.injEq] at h
            subst h
            refine ih _ ?_ e0 heq
            intro p hp hppp
            by_cases hpg : p.page = pred.page
            · exact absurd (hpg ▸ hppp) hpp
            · rw [if_neg hpg]
              exact Hrest p hp hppp
          · exact absurd h (by simp)

lemma processPreds_gold_perm (pccs : List PCC) (thr : ℚ) (ks : List ℤ) (hnd : ks.Nodup) :
    ∀ (preds : List Field) (pool : ℤ → List Field) (m : List MatchedPair)
      (e : List Field) (pl : ℤ → List Field),
      (∀ pg, pool pg ≠ [] → pg ∈ ks) →
      processPreds pccs thr preds pool = .ok (m, e, pl) →
      List.Perm (m.map (fun pr => pr.gold) ++ ks.flatMap pl) (ks.flatMap pool) := by
  intro preds
  induction preds with
  | nil =>
    intro pool m e pl _ h
    simp only [processPreds, Except.ok.injEq, Prod.mk.injEq] at h
    obtain ⟨rfl, rfl, rfl⟩ := h
    simp
  | cons pred rest ih =>
    intro pool m e pl H h
    simp only [processPreds] at h
    split at h
    · split at h
      · exact absurd h (by simp)
      · rename_i m0 e0 p0 heq
        simp only [Except.ok.injEq, Prod.mk.injEq] at h
        obtain ⟨rfl, rfl, rfl⟩ := h
        exact ih pool m0 e0 _ H heq
    · rename_i g0 gs0 hpool
      split at h
      · exact absurd h (by simp)
      · split at h
        · exact absurd h (by simp)
        · split at h
          · exact absurd h (by simp)
          · rename_i m0 e0 p0 heq
            simp only [Except.ok.injEq, Prod.mk.injEq] at h
            obtain ⟨rfl, rfl, rfl⟩ := h
            exact ih pool m0 e0 _ H heq
        · rename_i gold remaining hmp
          split at h
          · exact absurd h (by simp)
          · rename_i m0 e0 p0 heq
            simp only [Except.ok.injEq, Prod.mk.injEq] at h
            obtain ⟨rfl, rfl, rfl⟩ := h
            obtain ⟨l1, l2, hl, hrem⟩ := matchPred_ok_some _ _ _ _ _ _ _ hmp
            have hmem : pred.page ∈ ks :=
              H pred.page (by rw [hpool]; exact List.cons_ne_nil g0 gs0)
            have hupd := flatMap_update_perm gold l1 l2 ks pool pred.page hnd hmem
              (by rw [hpool]; exact hl)
            have H1 : ∀ pg, (if pg = pred.page then remaining else pool pg) ≠ [] →
                pg ∈ ks := by
              intro pg hne
              by_cases hpg : pg = pred.page
              · exact hpg ▸ hmem
              · rw [if_neg hpg] at hne
                exact H pg hne
            have ihh := ih _ m0 e0 _ H1 heq
            simp only [List.map_cons, List.cons_append]
            rw [hrem] at ihh
            exact (ihh.cons gold).trans hupd.symm

/-! ### Properties of `processAll` (the fieldtype loop) -/

lemma sortPreds_perm (l : List Field) : List.Perm (sortPreds l) l :=
  sortStable_perm _ l

lemma flatMap_nil_fun {α β : Type} (l : List α) :
    l.flatMap (fun _ => ([] : List β)) = [] := by
  induction l with
  | nil => rfl
  | cons a l ih =>
    simp only [List.flatMap_cons, List.nil_append]
    exact ih

lemma processAll_pred_perm (pccs : List PCC) (thr : ℚ) (predsBy : Option String → List Field) :
    ∀ (fts : List (Option String)) (pool : Pool) (m : List MatchedPair)
      (e : List Field) (pl : Pool),
      processAll pccs thr predsBy fts pool = .ok (m, e, pl) →
      List.Perm (m.map (fun pr => pr.pred) ++ e) (fts.flatMap (fun ft => predsBy ft)) := by
  intro fts
  induction fts with
  | nil =>
    intro pool m e pl h
    simp only [processAll, Except.ok.injEq, Prod.mk.injEq] at h
    obtain ⟨rfl, rfl, rfl⟩ := h
    simp
  | cons ft fts ih =>
    intro pool m e pl h
    simp only [processAll] at h
    split at h
    · exact absurd h (by simp)
    · rename_i m1 e1 ftPool heq1
      split at h
      · exact absurd h (by simp)
      · rename_i m2 e2 fp heq2
        simp only [Except.ok.injEq, Prod.mk.injEq] at h
        obtain ⟨rfl, rfl, rfl⟩ := h
        have h1 : List.Perm (m1.map (fun pr => pr.pred) ++ e1) (predsBy ft) :=
          (processPreds_pred_perm pccs thr _ _ m1 e1 ftPool heq1).trans
            (sortPreds_perm (predsBy ft))
        have h2 := ih _ m2 e2 _ heq2
        simp only [List.flatMap_cons, List.map_append]
        exact (perm_shuffle _ _ _ _).trans (h1.append h2)

lemma flatMap_slot_perm {κ α : Type} :
    ∀ (ks : List κ) (k0 : κ), ks.Nodup → k0 ∈ ks →
      ∀ (f g : κ → List α) (X : List α),
        List.Perm (X ++ g k0) (f k0) →
        (∀ k ∈ ks, k ≠ k0 → g k = f k) →
        List.Perm (X ++ ks.flatMap g) (ks.flatMap f) := by
  intro ks
  induction ks with
  | nil => intro k0 _ hin; exact absurd hin (List.not_mem_nil k0)
  | cons k ks' ih =>
    intro k0 hnd hin f g X hslot hother
    rcases List.mem_cons.mp hin with rfl | hin'
    · have hnotin : k0 ∉ ks' := (List.nodup_cons.mp hnd).1
      have hrest : ks'.flatMap g = ks'.flatMap f := by
        refine flatMap_congr_mem (fun c hc => ?_)
        have hcne : c ≠ k0 := fun hcc => hnotin (hcc ▸ hc)
        exact hother c (List.mem_cons_of_mem k0 hc) hcne
      simp only [List.flatMap_cons, hrest]
      calc X ++ (g k0 ++ ks'.flatMap f) = (X ++ g k0) ++ ks'.flatMap f := by
            rw [List.append_assoc]
        _ ~ f k0 ++ ks'.flatMap f := hslot.append_right _
    · have hkne : k ≠ k0 := by
        rintro rfl
        exact (List.nodup_cons.mp hnd).1 hin'
      have hk : g k = f k := hother k (List.mem_cons_self k ks') hkne
      have ihh := ih k0 (List.nodup_cons.mp hnd).2 hin' f g X hslot
        (fun c hc hcne => hother c (List.mem_cons_of_mem k hc) hcne)
      simp only [List.flatMap_cons, hk]
      calc X ++ (f k ++ ks'.flatMap g)
          ~ f k ++ (X ++ ks'.flatMap g) := perm_swap_left _ _ _
        _ ~ f k ++ ks'.flatMap f := ihh.append_left (f k)

lemma processAll_gold_perm (pccs : List PCC) (thr : ℚ) (predsBy : Option String → List Field)
    (ftK : List (Option String)) (pgK : Option String → List ℤ)
    (hftnd : ftK.Nodup) (hpgnd : ∀ ft, (pgK ft).Nodup) :
    ∀ (fts : List (Option String)) (pool : Pool) (m : List MatchedPair)
      (e : List Field) (pl : Pool),
      (∀ ft pg, pool ft pg ≠ [] → ft ∈ ftK ∧ pg ∈ pgK ft) →
      processAll pccs thr predsBy fts pool = .ok (m, e, pl) →
      List.Perm
        (m.map (fun pr => pr.gold) ++ ftK.flatMap (fun ft => (pgK ft).flatMap (pl ft)))
        (ftK.flatMap (fun ft => (pgK ft).flatMap (pool ft))) := by
  intro fts
  induction fts with
  | nil =>
    intro pool m e pl _ h
    simp only [processAll, Except.ok.injEq, Prod.mk.injEq] at h
    obtain ⟨rfl, rfl, rfl⟩ := h
    simp
  | cons ft fts ih =>
    intro pool m e pl H h
    simp only [processAll] at h
    split at h
    · exact absurd h (by simp)
    · rename_i m1 e1 ftPool heq1
      split at h
      · exact absurd h (by simp)
      · rename_i m2 e2 fp heq2
        simp only [Except.ok.injEq, Prod.mk.injEq] at h
        obtain ⟨rfl, rfl, rfl⟩ := h
        have hsub := processPreds_pool_sublist pccs thr _ _ m1 e1 ftPool heq1
        have g1 : List.Perm (m1.map (fun pr => pr.gold) ++ (pgK ft).flatMap ftPool)
            ((pgK ft).flatMap (pool ft)) :=
          processPreds_gold_perm pccs thr (pgK ft) (hpgnd ft) _ (pool ft) m1 e1 ftPool
            (fun pg hne => (H ft pg hne).2) heq1
        have H1 : ∀ ft' pg, (if ft' = ft then ftPool else pool ft') pg ≠ [] →
            ft' ∈ ftK ∧ pg ∈ pgK ft' := by
          intro ft' pg hne
          by_cases hft' : ft' = ft
          · subst hft'
            rw [if_pos rfl] at hne
            refine H ft' pg (fun hc => hne ?_)
            exact List.sublist_nil.mp (hc ▸ hsub pg)
          · rw [if_neg hft'] at hne
            exact H ft' pg hne
        have ihh := ih _ m2 e2 _ H1 heq2
        simp only [List.map_append]
        by_cases hin : ft ∈ ftK
        · have hstep := flatMap_slot_perm ftK ft hftnd hin
            (fun c => (pgK c).flatMap (pool c))
            (fun c => (pgK c).flatMap (if c = ft then ftPool else pool c))
            (m1.map (fun pr => pr.gold))
            (by
              show List.Perm (m1.map (fun pr => pr.gold) ++
                (pgK ft).flatMap (if ft = ft then ftPool else pool ft))
                ((pgK ft).flatMap (pool ft))
              rw [if_pos rfl]
              exact g1)
            (by
              intro c _ hcne
              show (pgK c).flatMap (if c = ft then ftPool else pool c) =
                (pgK c).flatMap (pool c)
              rw [if_neg hcne])
          calc m1.map (fun pr => pr.gold) ++ m2.map (fun pr => pr.gold) ++
                ftK.flatMap (fun c => (pgK c).flatMap (fp c))
              = m1.map (fun pr => pr.gold) ++ (m2.map (fun pr => pr.gold) ++
                ftK.flatMap (fun c => (pgK c).flatMap (fp c))) := by
                rw [List.append_assoc]
            _ ~ m1.map (fun pr => pr.gold) ++
                ftK.flatMap (fun c => (pgK c).flatMap (if c = ft then ftPool else pool c)) :=
                ihh.append_left _
            _ ~ ftK.flatMap (fun c => (pgK c).flatMap (pool c)) := hstep
        · have hpoolft : ∀ pg, pool ft pg = [] := by
            intro pg
            by_contra hc
            exact hin (H ft pg hc).1
          have hS0 : (pgK ft).flatMap (pool ft) = [] := by
            rw [flatMap_congr_mem (fun pg _ => hpoolft pg)]
            exact flatMap_nil_fun _
          have g1' := g1
          rw [hS0] at g1'
          have hnil := List.append_eq_nil.mp (List.Perm.eq_nil g1')
          have hm1 : m1 = [] := List.map_eq_nil_iff.mp hnil.1
          have hsame : ftK.flatMap (fun c => (pgK c).flatMap (if c = ft then ftPool else pool c)) =
              ftK.flatMap (fun c => (pgK c).flatMap (pool c)) := by
            refine flatMap_congr_mem (fun c hc => ?_)
            have hcne : c ≠ ft := fun hcc => hin (hcc ▸ hc)
            rw [if_neg hcne]
          rw [hsame] at ihh
          rw [hm1]
          simpa using ihh

lemma processAll_no_keyError (pccs : List PCC) (thr : ℚ) (predsBy : Option String → List Field) :
    ∀ (fts : List (Option String)) (pool : Pool),
      (∀ ft, ∀ p ∈ predsBy ft, pagePccs pccs p.page = [] → pool ft p.page = []) →
      ∀ e, processAll pccs thr predsBy fts pool = .error e →
        e = PyError.zeroDivisionError := by
  intro fts
  induction fts with
  | nil => intro pool _ e h; exact absurd h (by simp [processAll])
  | cons ft fts ih =>
    intro pool H e h
    simp only [processAll] at h
    split at h
    · rename_i e0 heq
      simp only [Except.error.injEq] at h
      subst h
      refine processPreds_no_keyError pccs thr _ (pool ft) ?_ e0 heq
      intro p hp
      exact H ft p (mem_sortStable.mp hp)
    · rename_i m1 e1 ftPool heq1
      split at h
      · rename_i e0 heq2
        simp only [Except.error.injEq] at h
        subst h
        refine ih _ ?_ e0 heq2
        intro ft' p hp hpp
        by_cases hft' : ft' = ft
        · subst hft'
          rw [if_pos rfl]
          have hsub := processPreds_pool_sublist pccs thr _ _ m1 e1 ftPool heq1 p.page
          have : pool ft' p.page = [] := H ft' p hp hpp
          exact List.sublist_nil.mp (this ▸ hsub)
        · rw [if_neg hft']
          exact H ft' p hp hpp
      · exact absurd h (by simp)

lemma processAll_fieldtype_slice (pccs : List PCC) (thr : ℚ)
    (predsBy : Option String → List Field) :
    ∀ (fts : List (Option String)) (pool : Pool) (m : List MatchedPair)
      (e : List Field) (pl : Pool),
      fts.Nodup →
      processAll pccs thr predsBy fts pool = .ok (m, e, pl) →
      ∀ ft ∈ fts, ∃ m1 e1 ftPool,
        processPreds pccs thr (sortPreds (predsBy ft)) (pool ft) = .ok (m1, e1, ftPool) ∧
        ∀ pr ∈ m1, pr ∈ m := by
  intro fts
  induction fts with
  | nil => intro pool m e pl _ _ ft hft; exact absurd hft (List.not_mem_nil ft)
  | cons ft0 fts ih =>
    intro pool m e pl hnd h ft hft
    simp only [processAll] at h
    split at h
    · exact absurd h (by simp)
    · rename_i m1 e1 ftPool heq1
      split at h
      · exact absurd h (by simp)
      · rename_i m2 e2 fp heq2
        simp only [Except.ok.injEq, Prod.mk.injEq] at h
        obtain ⟨rfl, rfl, rfl⟩ := h
        rcases List.mem_cons.mp hft with rfl | hft'
        · exact ⟨m1, e1, ftPool, heq1, fun pr hpr => List.mem_append_left _ hpr⟩
        · have hne : ft ≠ ft0 := by
            rintro rfl
            exact (List.nodup_cons.mp hnd).1 hft'
          obtain ⟨m1', e1', ftPool', heqP, hsubm⟩ :=
            ih _ m2 e2 _ (List.nodup_cons.mp hnd).2 heq2 ft hft'
          rw [if_neg hne] at heqP
          exact ⟨m1', e1', ftPool', heqP, fun pr hpr => List.mem_append_right _ (hsubm pr hpr)⟩

/-! ### Claims C1, C3, C6 -/

lemma initialPool_flatten_perm (annotations : List Field) :
    List.Perm
      ((dedupKeepFirst (annotations.map (fun a => a.fieldtype))).flatMap fun ft =>
        (dedupKeepFirst ((annotations.filter (fun a => decide (a.fieldtype = ft))).map
          (fun a => a.page))).flatMap fun pg => initialPool annotations ft pg)
      annotations := by
  have hsplit : ∀ (ft : Option String) (pg : ℤ), initialPool annotations ft pg =
      (annotations.filter (fun a => decide (a.fieldtype = ft))).filter
        (fun a => decide (a.page = pg)) := by
    intro ft pg
    simp only [initialPool, List.filter_filter]
    refine (List.filter_congr ?_).symm
    intro a _
    rw [Bool.decide_and, Bool.and_comm]
  have hinner : ∀ ft ∈ dedupKeepFirst (annotations.map (fun a => a.fieldtype)),
      List.Perm
        ((dedupKeepFirst ((annotations.filter (fun a => decide (a.fieldtype = ft))).map
          (fun a => a.page))).flatMap fun pg => initialPool annotations ft pg)
        (annotations.filter (fun a => decide (a.fieldtype = ft))) := by
    intro ft _
    rw [flatMap_congr_mem (fun pg _ => hsplit ft pg)]
    exact flatMap_filter_perm (fun (a : Field) => a.page)
      (annotations.filter (fun a => decide (a.fieldtype = ft))) _ (nodup_dedupKeepFirst _)
      (fun a ha => mem_dedupKeepFirst.mpr (List.mem_map_of_mem _ ha))
  refine (flatMap_perm_congr hinner).trans ?_
  exact flatMap_filter_perm (fun a => a.fieldtype) annotations _ (nodup_dedupKeepFirst _)
    (fun a ha => mem_dedupKeepFirst.mpr (List.mem_map_of_mem _ ha))

lemma get_matches_ok_perms (predictions annotations : List Field) (pccs : List PCC)
    (thr : ℚ) (fm : FieldMatching)
    (h : get_matches predictions annotations pccs thr = .ok fm) :
    List.Perm (fm.matches.map (fun pr => pr.pred) ++ fm.extra) predictions ∧
    List.Perm (fm.matches.map (fun pr => pr.gold) ++ fm.misses) annotations := by
  simp only [get_matches] at h
  split at h
  · exact absurd h (by simp)
  · rename_i m e2 fp heq
    simp only [Except.ok.injEq] at h
    subst h
    constructor
    · have h1 := processAll_pred_perm pccs thr _ _ _ m e2 fp heq
      refine h1.trans ?_
      refine flatMap_filter_perm (fun p => p.fieldtype) predictions
        (allFieldtypes predictions annotations) (nodup_dedupKeepFirst _) ?_
      intro p hp
      exact mem_dedupKeepFirst.mpr
        (List.mem_append_right _ (List.mem_map_of_mem _ hp))
    · have hside : ∀ (ft : Option String) (pg : ℤ),
          initialPool annotations ft pg ≠ [] →
          ft ∈ dedupKeepFirst (annotations.map (fun a => a.fieldtype)) ∧
          pg ∈ dedupKeepFirst ((annotations.filter
            (fun a => decide (a.fieldtype = ft))).map (fun a => a.page)) := by
        intro ft pg hne
        obtain ⟨a, ha⟩ := List.exists_mem_of_ne_nil _ hne
        have hmem := List.mem_filter.mp ha
        rw [decide_eq_true_eq] at hmem
        have haann := hmem.1
        have hft := hmem.2.1
        have hpg := hmem.2.2
        constructor
        · exact mem_dedupKeepFirst.mpr (hft ▸ List.mem_map_of_mem _ haann)
        · refine mem_dedupKeepFirst.mpr ?_
          have : a ∈ annotations.filter (fun a => decide (a.fieldtype = ft)) :=
            List.mem_filter.mpr ⟨haann, by rw [decide_eq_true_eq]; exact hft⟩
          exact hpg ▸ List.mem_map_of_mem _ this
      have h2 := processAll_gold_perm pccs thr _
        (dedupKeepFirst (annotations.map (fun a => a.fieldtype)))
        (fun ft => dedupKeepFirst ((annotations.filter
          (fun a => decide (a.fieldtype = ft))).map (fun a => a.page)))
        (nodup_dedupKeepFirst _) (fun _ => nodup_dedupKeepFirst _)
        _ (initialPool annotations) m e2 fp hside heq
      exact h2.trans (initialPool_flatten_perm annotations)

/-- C1: whenever `get_matches` returns a `FieldMatching`, the matched
predictions together with the extra predictions are a permutation of the
input predictions, the matched golds together with the misses are a
permutation of the input annotations, and in particular
`|matches| + |extra| = |predictions|` and `|matches| + |misses| = |annotations|`. -/
theorem c1_partition (predictions annotations : List Field) (pccs : List PCC)
    (iou_threshold : ℚ) (fm : FieldMatching)
    (h : get_matches predictions annotations pccs iou_threshold = .ok fm) :
    List.Perm (fm.matches.map (fun pr => pr.pred) ++ fm.extra) predictions ∧
    List.Perm (fm.matches.map (fun pr => pr.gold) ++ fm.misses) annotations ∧
    fm.matches.length + fm.extra.length = predictions.length ∧
    fm.matches.length + fm.misses.length = annotations.length := by
  obtain ⟨h1, h2⟩ := get_matches_ok_perms predictions annotations pccs iou_threshold fm h
  refine ⟨h1, h2, ?_, ?_⟩
  · have := h1.length_eq
    simpa using this
  · have := h2.length_eq
    simpa using this

theorem c1_witness :
    get_matches
      [Field.mk (BBox.mk 0 0 1 1) 0 (some (9 / 10)) (some "a") (some "A") none]
      [Field.mk (BBox.mk 0 0 1 1) 0 none (some "a") (some "A") none]
      [PCC.mk (1 / 2) (1 / 2) 0] 1 =
      .ok (FieldMatching.mk
        [MatchedPair.mk (Field.mk (BBox.mk 0 0 1 1) 0 none (some "a") (some "A") none)
          (Field.mk (BBox.mk 0 0 1 1) 0 (some (9 / 10)) (some "a") (some "A") none)]
        [] []) ∧
    (1 : ℕ) + 0 = 1 := by
  have hok : get_matches
      [Field.mk (BBox.mk 0 0 1 1) 0 (some (9 / 10)) (some "a") (some "A") none]
      [Field.mk (BBox.mk 0 0 1 1) 0 none (some "a") (some "A") none]
      [PCC.mk (1 / 2) (1 / 2) 0] 1 =
      .ok (FieldMatching.mk
        [MatchedPair.mk (Field.mk (BBox.mk 0 0 1 1) 0 none (some "a") (some "A") none)
          (Field.mk (BBox.mk 0 0 1 1) 0 (some (9 / 10)) (some "a") (some "A") none)]
        [] []) := by decide
  have h := c1_partition _ _ _ _ _ hok
  exact ⟨hok, h.2.2.1⟩

/-- C3: no annotation entry and no prediction entry occurs in more than one
matched pair: the multiset of matched golds embeds into the annotations and
the multiset of matched preds embeds into the predictions. -/
theorem c3_no_double_matching (predictions annotations : List Field) (pccs : List PCC)
    (iou_threshold : ℚ) (fm : FieldMatching)
    (h : get_matches predictions annotations pccs iou_threshold = .ok fm) :
    (fm.matches.map (fun pr => pr.gold)).Subperm annotations ∧
    (fm.matches.map (fun pr => pr.pred)).Subperm predictions := by
  obtain ⟨h1, h2⟩ := get_matches_ok_perms predictions annotations pccs iou_threshold fm h
  constructor
  · exact ((List.sublist_append_left _ _).subperm).trans h2.subperm
  · exact ((List.sublist_append_left _ _).subperm).trans h1.subperm

theorem c3_witness :
    get_matches
      [Field.mk (BBox.mk 0 0 1 1) 0 (some (9 / 10)) (some "a") (some "A") none]
      [Field.mk (BBox.mk 0 0 1 1) 0 none (some "a") (some "A") none]
      [PCC.mk (1 / 2) (1 / 2) 0] 1 =
      .ok (FieldMatching.mk
        [MatchedPair.mk (Field.mk (BBox.mk 0 0 1 1) 0 none (some "a") (some "A") none)
          (Field.mk (BBox.mk 0 0 1 1) 0 (some (9 / 10)) (some "a") (some "A") none)]
        [] []) ∧
    (((FieldMatching.mk
        [MatchedPair.mk (Field.mk (BBox.mk 0 0 1 1) 0 none (some "a") (some "A") none)
          (Field.mk (BBox.mk 0 0 1 1) 0 (some (9 / 10)) (some "a") (some "A") none)]
        [] []).matches.map (fun pr => pr.gold)).Subperm
      [Field.mk (BBox.mk 0 0 1 1) 0 none (some "a") (some "A") none]) := by
  have hok : get_matches
      [Field.mk (BBox.mk 0 0 1 1) 0 (some (9 / 10)) (some "a") (some "A") none]
      [Field.mk (BBox.mk 0 0 1 1) 0 none (some "a") (some "A") none]
      [PCC.mk (1 / 2) (1 / 2) 0] 1 =
      .ok (FieldMatching.mk
        [MatchedPair.mk (Field.mk (BBox.mk 0 0 1 1) 0 none (some "a") (some "A") none)
          (Field.mk (BBox.mk 0 0 1 1) 0 (some (9 / 10)) (some "a") (some "A") none)]
        [] []) := by decide
  have h := c3_no_double_matching _ _ _ _ _ hok
  exact ⟨hok, h.1⟩

/-- C6 counterexample: a prediction whose page has no PCC in the pool,
with a gold candidate of the same fieldtype on that page, makes
`get_matches` raise a `KeyError` (the lookup `page_to_sorted_x_pccs[pred.page]`),
which is not the division-by-zero error the claim allows. -/
theorem c6_counterexample :
    get_matches
      [Field.mk (BBox.mk 0 0 1 1) 0 (some 1) (some "a") (some "A") none]
      [Field.mk (BBox.mk 0 0 1 1) 0 none (some "a") (some "A") none]
      [] 1 = .error PyError.keyError ∧
    PyError.keyError ≠ PyError.zeroDivisionError := by
  constructor
  · decide
  · decide

/-- C6 (amended): when every prediction's page either has a PCC in the pool
or has no gold candidate of the prediction's fieldtype on that page,
`get_matches` raises no error other than the division-by-zero error of
`pccs_iou`; in particular a `fieldtype` of `None`, a missing score or a
missing text never cause an error. -/
theorem c6_no_unexpected_errors (predictions annotations : List Field) (pccs : List PCC)
    (iou_threshold : ℚ)
    (H : ∀ p ∈ predictions, pagePccs pccs p.page = [] →
      annotations.filter
        (fun a => decide (a.fieldtype = p.fieldtype ∧ a.page = p.page)) = []) :
    get_matches predictions annotations pccs iou_threshold ≠ .error PyError.keyError := by
  intro hcon
  simp only [get_matches] at hcon
  split at hcon
  · rename_i e heq
    simp only [Except.error.injEq] at hcon
    have : e = PyError.zeroDivisionError := by
      refine processAll_no_keyError pccs iou_threshold _ _ _ ?_ e heq
      intro ft p hp hpp
      have hmemp := List.mem_filter.mp hp
      have hftp : p.fieldtype = ft := by
        have := hmemp.2
        rwa [decide_eq_true_eq] at this
      simp only [initialPool]
      rw [← hftp]
      exact H p hmemp.1 hpp
    rw [this] at hcon
    exact PyError.noConfusion hcon
  · exact absurd hcon (by simp)

theorem c6_witness :
    (∀ p ∈ [Field.mk (BBox.mk 0 0 1 1) 0 (some 1) (some "a") (some "A") none],
      pagePccs [PCC.mk (1 / 2) (1 / 2) 0] p.page = [] →
      ([Field.mk (BBox.mk 0 0 1 1) 0 none (some "a") (some "A") none].filter
        (fun a => decide (a.fieldtype = p.fieldtype ∧ a.page = p.page))) = []) ∧
    get_matches
      [Field.mk (BBox.mk 0 0 1 1) 0 (some 1) (some "a") (some "A") none]
      [Field.mk (BBox.mk 0 0 1 1) 0 none (some "a") (some "A") none]
      [PCC.mk (1 / 2) (1 / 2) 0] 1 ≠ .error PyError.keyError := by
  have H : ∀ p ∈ [Field.mk (BBox.mk 0 0 1 1) 0 (some 1) (some "a") (some "A") none],
      pagePccs [PCC.mk (1 / 2) (1 / 2) 0] p.page = [] →
      ([Field.mk (BBox.mk 0 0 1 1) 0 none (some "a") (some "A") none].filter
        (fun a => decide (a.fieldtype = p.fieldtype ∧ a.page = p.page))) = [] := by
    decide
  exact ⟨H, c6_no_unexpected_errors _ _ _ _ H⟩

/-! ### Claim C7 -/

/-- Every PCC derived from a field with a valid bbox lies inside that bbox
and carries the field's page. -/
lemma field_pccs_bounds (f : Field) (hx : f.bbox.left ≤ f.bbox.right)
    (hy : f.bbox.top ≤ f.bbox.bottom) :
    ∀ r ∈ f.pccs, r.page = f.page ∧ f.bbox.left ≤ r.x ∧ r.x ≤ f.bbox.right ∧
      f.bbox.top ≤ r.y ∧ r.y ≤ f.bbox.bottom := by
  intro r hr
  simp only [Field.pccs] at hr
  split at hr
  · exact absurd hr (List.not_mem_nil r)
  · rename_i t htext
    split at hr
    · exact absurd hr (List.not_mem_nil r)
    · rename_i hn
      simp only [calculate_pccs, List.mem_map, List.mem_range] at hr
      obtain ⟨i, hi, rfl⟩ := hr
      have hn0 : (0 : ℚ) < (t.length : ℚ) := by
        have := Nat.pos_of_ne_zero hn
        exact_mod_cast this
      have hW : (0 : ℚ) ≤ f.bbox.right - f.bbox.left := sub_nonneg.mpr hx
      have hdiv : (0 : ℚ) ≤ (f.bbox.right - f.bbox.left) / (t.length : ℚ) :=
        div_nonneg hW hn0.le
      have hix : ((i : ℚ) + 1 / 2) ≤ (t.length : ℚ) := by
        have h1 : (i : ℚ) + 1 ≤ (t.length : ℚ) := by
          have := Nat.succ_le_of_lt hi
          exact_mod_cast this
        linarith
      have hprod : (0 : ℚ) ≤ ((i : ℚ) + 1 / 2) *
          ((f.bbox.right - f.bbox.left) / (t.length : ℚ)) := by
        have hi0 : (0 : ℚ) ≤ (i : ℚ) + 1 / 2 := by positivity
        exact mul_nonneg hi0 hdiv
      have hcancel : (t.length : ℚ) *
          ((f.bbox.right - f.bbox.left) / (t.length : ℚ)) =
          f.bbox.right - f.bbox.left := by
        field_simp
      have hupper : ((i : ℚ) + 1 / 2) *
          ((f.bbox.right - f.bbox.left) / (t.length : ℚ)) ≤
          f.bbox.right - f.bbox.left := by
        calc ((i : ℚ) + 1 / 2) * ((f.bbox.right - f.bbox.left) / (t.length : ℚ))
            ≤ (t.length : ℚ) * ((f.bbox.right - f.bbox.left) / (t.length : ℚ)) :=
              mul_le_mul_of_nonneg_right hix hdiv
          _ = f.bbox.right - f.bbox.left := hcancel
      refine ⟨rfl, ?_, ?_, ?_, ?_⟩
      · show f.bbox.left ≤ f.bbox.left +
          ((i : ℚ) + 1 / 2) * ((f.bbox.right - f.bbox.left) / (t.length : ℚ))
        linarith
      · show f.bbox.left +
          ((i : ℚ) + 1 / 2) * ((f.bbox.right - f.bbox.left) / (t.length : ℚ)) ≤
          f.bbox.right
        linarith
      · show f.bbox.top ≤ (f.bbox.top + f.bbox.bottom) / 2
        linarith
      · show (f.bbox.top + f.bbox.bottom) / 2 ≤ f.bbox.bottom
        linarith

lemma pccs_iou_same_bbox (sx sy : List PCC) (b : BBox)
    (hne : pccs_covered sx sy b ≠ ∅) :
    pccs_iou sx sy b b = .ok 1 := by
  simp only [pccs_iou, Finset.union_self, Finset.inter_self]
  have hcard : (pccs_covered sx sy b).card ≠ 0 :=
    fun hc => hne (Finset.card_eq_zero.mp hc)
  rw [if_neg hcard]
  congr 1
  exact div_self (by exact_mod_cast hcard)

/-- C7 counterexample: at threshold `1`, a prediction whose bbox and text
are identical to a gold annotation of its fieldtype and page, with the
pool holding the gold's PCCs, ends up in `extra` (not matched) because a
higher-scored prediction consumed the only gold candidate first. -/
theorem c7_counterexample :
    (Field.mk (BBox.mk 0 0 1 1) 0 (some (1 / 2)) (some "a") (some "A") none).bbox =
      (Field.mk (BBox.mk 0 0 1 1) 0 none (some "a") (some "A") none).bbox ∧
    (Field.mk (BBox.mk 0 0 1 1) 0 (some (1 / 2)) (some "a") (some "A") none).text =
      (Field.mk (BBox.mk 0 0 1 1) 0 none (some "a") (some "A") none).text ∧
    (Field.mk (BBox.mk 0 0 1 1) 0 (some (1 / 2)) (some "a") (some "A") none).fieldtype =
      (Field.mk (BBox.mk 0 0 1 1) 0 none (some "a") (some "A") none).fieldtype ∧
    (Field.mk (BBox.mk 0 0 1 1) 0 (some (1 / 2)) (some "a") (some "A") none).page =
      (Field.mk (BBox.mk 0 0 1 1) 0 none (some "a") (some "A") none).page ∧
    (∀ r ∈ (Field.mk (BBox.mk 0 0 1 1) 0 none (some "a") (some "A") none).pccs,
      r ∈ [PCC.mk (1 / 2) (1 / 2) 0]) ∧
    get_matches
      [Field.mk (BBox.mk 0 0 1 1) 0 (some (9 / 10)) (some "a") (some "A") none,
       Field.mk (BBox.mk 0 0 1 1) 0 (some (1 / 2)) (some "a") (some "A") none]
      [Field.mk (BBox.mk 0 0 1 1) 0 none (some "a") (some "A") none]
      [PCC.mk (1 / 2) (1 / 2) 0] 1 =
      .ok (FieldMatching.mk
        [MatchedPair.mk (Field.mk (BBox.mk 0 0 1 1) 0 none (some "a") (some "A") none)
          (Field.mk (BBox.mk 0 0 1 1) 0 (some (9 / 10)) (some "a") (some "A") none)]
        [Field.mk (BBox.mk 0 0 1 1) 0 (some (1 / 2)) (some "a") (some "A") none]
        []) ∧
    Field.mk (BBox.mk 0 0 1 1) 0 (some (1 / 2)) (some "a") (some "A") none ∉
      (FieldMatching.mk
        [MatchedPair.mk (Field.mk (BBox.mk 0 0 1 1) 0 none (some "a") (some "A") none)
          (Field.mk (BBox.mk 0 0 1 1) 0 (some (9 / 10)) (some "a") (some "A") none)]
        [Field.mk (BBox.mk 0 0 1 1) 0 (some (1 / 2)) (some "a") (some "A") none]
        []).matches.map (fun pr => pr.pred) := by
  refine ⟨rfl, rfl, rfl, rfl, by decide, by decide, by decide⟩

/-- C7 (amended): at `iou_threshold = 1`, when the pool contains the PCCs
of a gold annotation with non-empty text and a valid bbox, a prediction
with identical bbox and text, same fieldtype and page, that is the only
prediction of its fieldtype, always ends up matched whenever `get_matches`
returns a result. -/
theorem c7_identical_prediction_matches (predictions annotations : List Field)
    (pccs : List PCC) (fm : FieldMatching) (p g : Field)
    (hok : get_matches predictions annotations pccs 1 = .ok fm)
    (honly : predictions.filter (fun q => decide (q.fieldtype = p.fieldtype)) = [p])
    (hg : g ∈ annotations)
    (hft : g.fieldtype = p.fieldtype) (hpg : g.page = p.page)
    (hbb : g.bbox = p.bbox) (_htxt : g.text = p.text)
    (hpccs_ne : g.pccs ≠ [])
    (hsub : ∀ r ∈ g.pccs, r ∈ pccs)
    (hvx : g.bbox.left ≤ g.bbox.right) (hvy : g.bbox.top ≤ g.bbox.bottom) :
    p ∈ fm.matches.map (fun pr => pr.pred) := by
  obtain ⟨r0, hr0⟩ := List.exists_mem_of_ne_nil _ hpccs_ne
  obtain ⟨hr0pg, hr0l, hr0r, hr0t, hr0b⟩ := field_pccs_bounds g hvx hvy r0 hr0
  have hr0page : r0.page = p.page := by rw [hr0pg, hpg]
  have hr0pool : r0 ∈ pagePccs pccs p.page :=
    List.mem_filter.mpr ⟨hsub r0 hr0, by rw [decide_eq_true_eq]; exact hr0page⟩
  have hppne : pagePccs pccs p.page ≠ [] := List.ne_nil_of_mem hr0pool
  have hsortperm : List.Perm (sortedXPccs pccs p.page) (sortedYPccs pccs p.page) :=
    (sortStable_perm _ _).trans (sortStable_perm _ _).symm
  have hxs : (sortedXPccs pccs p.page).Pairwise (fun a b => a.x ≤ b.x) :=
    sortStable_sorted (fun q => q.x) (pagePccs pccs p.page)
  have hys : (sortedYPccs pccs p.page).Pairwise (fun a b => a.y ≤ b.y) :=
    sortStable_sorted (fun q => q.y) (pagePccs pccs p.page)
  have hr0cov : r0 ∈ pccs_covered (sortedXPccs pccs p.page) (sortedYPccs pccs p.page)
      p.bbox := by
    rw [pccs_covered_mem p.bbox hxs hys hsortperm]
    rw [← hbb]
    exact ⟨mem_sortStable.mpr hr0pool, hr0l, hr0r, hr0t, hr0b⟩
  have hcovne : pccs_covered (sortedXPccs pccs p.page) (sortedYPccs pccs p.page)
      p.bbox ≠ ∅ := by
    intro hc
    rw [hc] at hr0cov
    exact absurd hr0cov (Finset.not_mem_empty r0)
  have hiou1 : pccs_iou (sortedXPccs pccs p.page) (sortedYPccs pccs p.page)
      p.bbox p.bbox = .ok 1 := pccs_iou_same_bbox _ _ _ hcovne
  -- unfold get_matches at hok
  simp only [get_matches] at hok
  split at hok
  · exact absurd hok (by simp)
  · rename_i m e2 fp heq
    simp only [Except.ok.injEq] at hok
    subst hok
    have hp : p ∈ predictions := by
      have : p ∈ predictions.filter (fun q => decide (q.fieldtype = p.fieldtype)) := by
        rw [honly]
        exact List.mem_cons_self p []
      exact (List.mem_filter.mp this).1
    have hftmem : p.fieldtype ∈ allFieldtypes predictions annotations :=
      mem_dedupKeepFirst.mpr (List.mem_append_right _ (List.mem_map_of_mem _ hp))
    obtain ⟨m1, e1, ftPool, heqP, hsubm⟩ :=
      processAll_fieldtype_slice pccs 1 _ (allFieldtypes predictions annotations)
        (initialPool annotations) m e2 fp (nodup_dedupKeepFirst _) heq
        p.fieldtype hftmem
    rw [honly] at heqP
    have hsorted_single : sortPreds [p] = [p] := rfl
    rw [hsorted_single] at heqP
    have hgpool : g ∈ initialPool annotations p.fieldtype p.page :=
      List.mem_filter.mpr ⟨hg, by rw [decide_eq_true_eq]; exact ⟨hft, hpg⟩⟩
    simp only [processPreds] at heqP
    split at heqP
    · rename_i hpool
      rw [hpool] at hgpool
      exact absurd hgpool (List.not_mem_nil g)
    · rename_i g0 gs0 hpool
      rw [if_neg hppne] at heqP
      have hgmem : g ∈ g0 :: gs0 := hpool ▸ hgpool
      obtain ⟨g', gs', hmp⟩ := matchPred_finds (sortedXPccs pccs p.page)
        (sortedYPccs pccs p.page) p.bbox 1 hcovne (g0 :: gs0) g hgmem
        (by
          intro iou hiou
          rw [hbb, hiou1] at hiou
          simp only [Except.ok.injEq] at hiou
          subst hiou
          rw [EPS]
          norm_num)
      rw [hmp] at heqP
      simp only [Except.ok.injEq, Prod.mk.injEq] at heqP
      obtain ⟨hm1, _, _⟩ := heqP
      have hpair : MatchedPair.mk g' p ∈ m := by
        refine hsubm _ ?_
        rw [← hm1]
        exact List.mem_cons_self _ []
      simpa using List.mem_map_of_mem (fun pr => pr.pred) hpair

theorem c7_witness :
    Field.mk (BBox.mk 0 0 1 1) 0 (some (1 / 2)) (some "a") (some "A") none ∈
      (FieldMatching.mk
        [MatchedPair.mk (Field.mk (BBox.mk 0 0 1 1) 0 none (some "a") (some "A") none)
          (Field.mk (BBox.mk 0 0 1 1) 0 (some (1 / 2)) (some "a") (some "A") none)]
        [] []).matches.map (fun pr => pr.pred) := by
  refine c7_identical_prediction_matches
    [Field.mk (BBox.mk 0 0 1 1) 0 (some (1 / 2)) (some "a") (some "A") none]
    [Field.mk (BBox.mk 0 0 1 1) 0 none (some "a") (some "A") none]
    [PCC.mk (1 / 2) (1 / 2) 0]
    (FieldMatching.mk
      [MatchedPair.mk (Field.mk (BBox.mk 0 0 1 1) 0 none (some "a") (some "A") none)
        (Field.mk (BBox.mk 0 0 1 1) 0 (some (1 / 2)) (some "a") (some "A") none)]
      [] [])
    (Field.mk (BBox.mk 0 0 1 1) 0 (some (1 / 2)) (some "a") (some "A") none)
    (Field.mk (BBox.mk 0 0 1 1) 0 none (some "a") (some "A") none)
    (by decide) (by decide) (by decide) (by decide) (by decide) (by decide) (by decide)
    (by decide) (by decide) (by decide) (by decide)

/-! ### Claim C2: the matching step refines the spec's description -/

lemma scoreKey_eq_neg_specScore (f : Field) : scoreKey f = -(specScore f) := by
  cases hs : f.score with
  | none => simp [scoreKey, specScore, hs]
  | some s => simp [scoreKey, specScore, hs]

lemma withIdx_mem_idx {α : Type} :
    ∀ (l : List α) (n : ℕ) (q : ℕ × α), q ∈ withIdx n l → n ≤ q.1 := by
  intro l
  induction l with
  | nil => intro n q hq; exact absurd hq (List.not_mem_nil q)
  | cons a l ih =>
    intro n q hq
    rcases List.mem_cons.mp hq with rfl | hq'
    · exact le_refl n
    · exact le_trans (Nat.le_succ n) (ih (n + 1) q hq')

lemma insertStable_withIdx (x : Field) (n : ℕ) :
    ∀ (s : List (ℕ × Field)), (∀ q ∈ s, n < q.1) →
      (insertStable specPredBefore (n, x) s).map Prod.snd =
        insertStable (fun a b => decide (scoreKey a ≤ scoreKey b)) x (s.map Prod.snd) := by
  intro s
  induction s with
  | nil => intro _; rfl
  | cons jy s' ih =>
    intro hs
    obtain ⟨j, y⟩ := jy
    have hnj : n < j := hs (j, y) (List.mem_cons_self _ _)
    have hcond : specPredBefore (n, x) (j, y) = decide (scoreKey x ≤ scoreKey y) := by
      simp only [specPredBefore]
      rw [decide_eq_decide]
      rw [scoreKey_eq_neg_specScore, scoreKey_eq_neg_specScore, neg_le_neg_iff]
      constructor
      · rintro (hlt | ⟨heq, _⟩)
        · exact le_of_lt hlt
        · exact le_of_eq heq.symm
      · intro hle
        rcases lt_or_eq_of_le hle with hlt | heq
        · exact Or.inl hlt
        · exact Or.inr ⟨heq.symm, le_of_lt hnj⟩
    simp only [insertStable, hcond]
    split
    · simp
    · simp only [List.map_cons]
      rw [ih (fun q hq => hs q (List.mem_cons_of_mem _ hq))]

lemma sortStable_withIdx :
    ∀ (l : List Field) (n : ℕ),
      (sortStable specPredBefore (withIdx n l)).map Prod.snd = sortPreds l := by
  intro l
  induction l with
  | nil => intro n; rfl
  | cons a l ih =>
    intro n
    have hstep : sortStable specPredBefore (withIdx n (a :: l)) =
        insertStable specPredBefore (n, a) (sortStable specPredBefore (withIdx (n + 1) l)) :=
      rfl
    rw [hstep]
    have hidx : ∀ q ∈ sortStable specPredBefore (withIdx (n + 1) l), n < q.1 := by
      intro q hq
      have := withIdx_mem_idx l (n + 1) q (mem_sortStable.mp hq)
      omega
    rw [insertStable_withIdx a n _ hidx, ih (n + 1)]
    rfl

lemma spec_sort_eq (l : List Field) : spec_sort_predictions l = sortPreds l :=
  sortStable_withIdx l 0

lemma matchPred_eq_spec (sx sy : List PCC) (pb : BBox) (thr : ℚ) :
    ∀ golds : List Field,
      matchPred sx sy pb thr golds =
        match spec_first_accept sx sy pb thr golds with
        | .error e => .error e
        | .ok none => .ok none
        | .ok (some (i, g)) => .ok (some (g, golds.eraseIdx i)) := by
  intro golds
  induction golds with
  | nil => rfl
  | cons g0 gs0 ih =>
    simp only [matchPred, spec_first_accept, EPS]
    cases hiou : pccs_iou sx sy g0.bbox pb with
    | error e => rfl
    | ok iou =>
      dsimp only
      by_cases hacc : iou > thr - 1 / 1000000
      · simp only [if_pos hacc]
        rfl
      · simp only [if_neg hacc, ih]
        cases hspec : spec_first_accept sx sy pb thr gs0 with
        | error e => rfl
        | ok o =>
          cases o with
          | none => rfl
          | some ig =>
            obtain ⟨i, g⟩ := ig
            rfl

lemma processPreds_eq_spec (pccs : List PCC) (thr : ℚ) :
    ∀ (preds : List Field) (pool : ℤ → List Field),
      processPreds pccs thr preds pool = spec_processPreds pccs thr preds pool := by
  intro preds
  induction preds with
  | nil => intro pool; rfl
  | cons pred rest ih =>
    intro pool
    simp only [processPreds, spec_processPreds]
    cases hpool : pool pred.page with
    | nil => rw [ih]
    | cons g0 gs0 =>
      dsimp only
      by_cases hpp : pagePccs pccs pred.page = []
      · rw [if_pos hpp, if_pos hpp]
      · rw [if_neg hpp, if_neg hpp, matchPred_eq_spec]
        cases hspec : spec_first_accept (sortedXPccs pccs pred.page)
            (sortedYPccs pccs pred.page) pred.bbox thr (g0 :: gs0) with
        | error e => rfl
        | ok o =>
          cases o with
          | none => rw [ih]
          | some ig =>
            obtain ⟨i, g⟩ := ig
            dsimp only
            simp only [ih]

lemma processAll_eq_spec (pccs : List PCC) (thr : ℚ) (predsBy : Option String → List Field) :
    ∀ (fts : List (Option String)) (pool : Pool),
      processAll pccs thr predsBy fts pool = spec_processAll pccs thr predsBy fts pool := by
  intro fts
  induction fts with
  | nil => intro pool; rfl
  | cons ft fts ih =>
    intro pool
    simp only [processAll, spec_processAll, spec_sort_eq, processPreds_eq_spec]
    cases hp : spec_processPreds pccs thr (sortPreds (predsBy ft)) (pool ft) with
    | error e => rfl
    | ok r =>
      obtain ⟨m1, e1, ftPool⟩ := r
      dsimp only
      rw [ih]

/-- C2: `get_matches` coincides, on every input, with the pipeline whose
per-fieldtype step is written from the spec's words: predictions sorted in
descending score order with a missing score treated as rank value `0` and
ties keeping the original relative order, each prediction matched to the
first remaining gold candidate of its `(fieldtype, page)` whose `pccs_iou`
exceeds `iou_threshold - 1e-6`, that candidate being removed from the pool,
and the prediction recorded as extra when no candidate qualifies. -/
theorem c2_matching_refines_spec (predictions annotations : List Field)
    (pccs : List PCC) (iou_threshold : ℚ) :
    get_matches predictions annotations pccs iou_threshold =
      get_matches_spec predictions annotations pccs iou_threshold := by
  simp only [get_matches, get_matches_spec, processAll_eq_spec]

end Docile
